import Mathlib

/-!
Verification of the ai-planner scheduling engine against its specification.

The definitions below are a shallow embedding of `src/app/services/scheduler.py`,
`src/app/routers/calendar.py`, `src/app/routers/scheduling.py`,
`src/app/routers/assistant.py`, `src/app/routers/meetings.py` and
`src/app/services/actions.py`.  Python `datetime` instants are modelled as
integers (seconds); `timedelta(minutes=m)` becomes `60*m`.  The dataclass
field `end` is called `stop` here (`end` is a Lean keyword).
-/

/-- Embeds the `Interval` dataclass of `scheduler.py` (fields `start`, `end`). -/
structure Ivl where
  start : Int
  stop : Int
deriving DecidableEq, Repr

/-- Embeds `Interval.minutes`: `int((end - start).total_seconds() // 60)`;
Python `//` is floor division. -/
def Ivl.minutes (i : Ivl) : Int := (i.stop - i.start).fdiv 60

/-- Insertion step of a stable sort by `start` (Python `sorted(key=λ i: i.start)`
is a stable sort; insertion with `≤` reproduces it). -/
def insertByStart (x : Ivl) : List Ivl → List Ivl
  | [] => [x]
  | y :: ys => if x.start ≤ y.start then x :: y :: ys else y :: insertByStart x ys

/-- Stable sort by `start`, embedding `sorted(intervals, key=λ item: item.start)`. -/
def sortByStart (l : List Ivl) : List Ivl := l.foldr insertByStart []

/-- The accumulation loop of `_merge_intervals`: `merged=[first]`, then each next
interval either extends the last merged interval (`interval.start <= prev.end`)
or starts a new run. -/
def mergeRun : Ivl → List Ivl → List Ivl
  | cur, [] => [cur]
  | cur, i :: rest =>
      if i.start ≤ cur.stop then mergeRun ⟨cur.start, max cur.stop i.stop⟩ rest
      else cur :: mergeRun i rest

/-- Embeds `_merge_intervals` (scheduler.py lines 44-55). -/
def mergeIntervals (intervals : List Ivl) : List Ivl :=
  match sortByStart intervals with
  | [] => []
  | first :: rest => mergeRun first rest

/-- One cursor against one merged busy interval: the body of the innermost loop
of `_subtract` (scheduler.py lines 69-76). -/
def cutOne (taken cursor : Ivl) : List Ivl :=
  if taken.stop ≤ cursor.start ∨ taken.start ≥ cursor.stop then [cursor]
  else
    (if taken.start > cursor.start then [⟨cursor.start, min taken.start cursor.stop⟩] else []) ++
    (if taken.stop < cursor.stop then [⟨max taken.stop cursor.start, cursor.stop⟩] else [])

/-- Processing of one base window by every merged busy interval, keeping only
cursors with `end > start` after each pass (scheduler.py lines 66-77). -/
def subtractWindow (busyMerged : List Ivl) (window : Ivl) : List Ivl :=
  busyMerged.foldl
    (fun cursors taken => (cursors.flatMap (cutOne taken)).filter (fun c => c.start < c.stop))
    [window]

/-- Embeds `_subtract` (scheduler.py lines 58-79): early return of `base` when
`busy` is empty, otherwise each window is cut by the merged busy list. -/
def subtractIntervals (base busy : List Ivl) : List Ivl :=
  if busy.isEmpty then base
  else base.flatMap (subtractWindow (mergeIntervals busy))

/-! ### Ordering lemmas for the merge -/

theorem chain'_insertByStart (x : Ivl) (l : List Ivl)
    (h : List.Chain' (fun a b => a.start ≤ b.start) l) :
    List.Chain' (fun a b => a.start ≤ b.start) (insertByStart x l) := by
  induction l with
  | nil => simp [insertByStart]
  | cons y ys ih =>
      by_cases hxy : x.start ≤ y.start
      · simp only [insertByStart, if_pos hxy]
        exact List.Chain'.cons hxy h
      · simp only [insertByStart, if_neg hxy]
        cases ys with
        | nil =>
            simp only [insertByStart]
            exact List.chain'_cons.mpr ⟨by omega, by simp⟩
        | cons w ws =>
            have hyw : y.start ≤ w.start := (List.chain'_cons.mp h).1
            have htail : List.Chain' (fun a b => a.start ≤ b.start) (w :: ws) :=
              (List.chain'_cons.mp h).2
            have hins := ih htail
            by_cases hxw : x.start ≤ w.start
            · simp only [insertByStart, if_pos hxw] at hins ⊢
              exact List.chain'_cons.mpr ⟨by omega, hins⟩
            · simp only [insertByStart, if_neg hxw] at hins ⊢
              exact List.chain'_cons.mpr ⟨hyw, hins⟩

theorem chain'_sortByStart (l : List Ivl) :
    List.Chain' (fun a b => a.start ≤ b.start) (sortByStart l) := by
  induction l with
  | nil => simp [sortByStart]
  | cons x xs ih => exact chain'_insertByStart x _ ih

theorem sortByStart_of_chain' (l : List Ivl)
    (h : List.Chain' (fun a b => a.start ≤ b.start) l) : sortByStart l = l := by
  induction l with
  | nil => rfl
  | cons x xs ih =>
      have hxs : sortByStart xs = xs := ih h.tail
      show insertByStart x (sortByStart xs) = x :: xs
      rw [hxs]
      cases xs with
      | nil => rfl
      | cons y ys =>
          have hxy : x.start ≤ y.start := (List.chain'_cons.mp h).1
          simp [insertByStart, hxy]

theorem mergeRun_head (t : List Ivl) (cur : Ivl) :
    ∃ e l', mergeRun cur t = ⟨cur.start, e⟩ :: l' := by
  induction t generalizing cur with
  | nil => exact ⟨cur.stop, [], rfl⟩
  | cons i rest ih =>
      by_cases h : i.start ≤ cur.stop
      · simpa [mergeRun, h] using ih ⟨cur.start, max cur.stop i.stop⟩
      · exact ⟨cur.stop, mergeRun i rest, by simp [mergeRun, h]⟩

theorem mergeRun_chains (t : List Ivl) (cur : Ivl)
    (h : List.Chain' (fun a b => a.start ≤ b.start) (cur :: t)) :
    List.Chain' (fun a b => a.start ≤ b.start) (mergeRun cur t) ∧
      List.Chain' (fun a b => a.stop < b.start) (mergeRun cur t) := by
  induction t generalizing cur with
  | nil => simp [mergeRun]
  | cons i rest ih =>
      have hci : cur.start ≤ i.start := (List.chain'_cons.mp h).1
      have hirest : List.Chain' (fun a b => a.start ≤ b.start) (i :: rest) :=
        (List.chain'_cons.mp h).2
      by_cases hm : i.start ≤ cur.stop
      · simp only [mergeRun, if_pos hm]
        apply ih
        cases rest with
        | nil => simp
        | cons j js =>
            have h1 : i.start ≤ j.start := (List.chain'_cons.mp hirest).1
            exact List.chain'_cons.mpr ⟨by simpa using le_trans hci h1,
              (List.chain'_cons.mp hirest).2⟩
      · simp only [mergeRun, if_neg hm]
        obtain ⟨hle, hsep⟩ := ih i hirest
        obtain ⟨e, l', hrun⟩ := mergeRun_head rest i
        constructor
        · rw [hrun] at hle ⊢
          exact List.chain'_cons.mpr ⟨by simpa using hci, hle⟩
        · rw [hrun] at hsep ⊢
          exact List.chain'_cons.mpr ⟨by simpa using (by omega : cur.stop < i.start), hsep⟩

theorem mergeRun_of_sep (t : List Ivl) (cur : Ivl)
    (h : List.Chain' (fun a b => a.stop < b.start) (cur :: t)) :
    mergeRun cur t = cur :: t := by
  induction t generalizing cur with
  | nil => rfl
  | cons i rest ih =>
      have h1 : cur.stop < i.start := (List.chain'_cons.mp h).1
      have h2 : ¬ i.start ≤ cur.stop := by omega
      simp only [mergeRun, if_neg h2]
      rw [ih i (List.chain'_cons.mp h).2]

theorem mergeIntervals_sorted (l : List Ivl) :
    List.Chain' (fun a b => a.start ≤ b.start) (mergeIntervals l) := by
  unfold mergeIntervals
  cases h : sortByStart l with
  | nil => simp
  | cons first rest =>
      have := chain'_sortByStart l
      rw [h] at this
      exact (mergeRun_chains rest first this).1

theorem mergeIntervals_sep (l : List Ivl) :
    List.Chain' (fun a b => a.stop < b.start) (mergeIntervals l) := by
  unfold mergeIntervals
  cases h : sortByStart l with
  | nil => simp
  | cons first rest =>
      have := chain'_sortByStart l
      rw [h] at this
      exact (mergeRun_chains rest first this).2

theorem mergeIntervals_idem (l : List Ivl) :
    mergeIntervals (mergeIntervals l) = mergeIntervals l := by
  have hsorted := mergeIntervals_sorted l
  have hsep := mergeIntervals_sep l
  cases h : mergeIntervals l with
  | nil => simp [mergeIntervals, sortByStart]
  | cons first rest =>
      rw [h] at hsorted hsep
      unfold mergeIntervals
      rw [sortByStart_of_chain' _ hsorted]
      exact mergeRun_of_sep rest first hsep

theorem sortByStart_length (l : List Ivl) : (sortByStart l).length = l.length := by
  induction l with
  | nil => rfl
  | cons x xs ih =>
      show (insertByStart x (sortByStart xs)).length = xs.length + 1
      rw [← ih]
      generalize sortByStart xs = m
      induction m with
      | nil => rfl
      | cons y ys ihm =>
          by_cases h : x.start ≤ y.start
          · simp [insertByStart, h]
          · simp only [insertByStart, if_neg h, List.length_cons]
            omega

theorem mergeIntervals_ne_nil (l : List Ivl) (h : l ≠ []) : mergeIntervals l ≠ [] := by
  unfold mergeIntervals
  cases hs : sortByStart l with
  | nil =>
      exfalso
      have := sortByStart_length l
      rw [hs] at this
      exact h (List.eq_nil_of_length_eq_zero this.symm)
  | cons first rest =>
      obtain ⟨e, l', hrun⟩ := mergeRun_head rest first
      simp [hrun]

/-- C6.  `subtract(base, merge(busy)) == subtract(base, busy)`:
pre-merging the busy list does not change the interval difference, because
`_subtract` itself merges its busy argument and `_merge_intervals` is
idempotent. -/
theorem subtract_merge_busy_eq (base busy : List Ivl) :
    subtractIntervals base (mergeIntervals busy) = subtractIntervals base busy := by
  by_cases h : busy = []
  · subst h
    simp [mergeIntervals, sortByStart, subtractIntervals]
  · have h1 : mergeIntervals busy ≠ [] := mergeIntervals_ne_nil busy h
    unfold subtractIntervals
    rw [if_neg (by simpa using h1), if_neg (by simpa using h), mergeIntervals_idem]

/-- C9.  A busy interval that merely touches a base window at an endpoint
(`busy.start = base.end` or `busy.end = base.start`) does not cut it: the
window survives the subtraction unchanged (intervals are half-open). -/
theorem subtract_touching_no_cut (base busy : Ivl)
    (hbase : base.start < base.stop)
    (htouch : busy.start = base.stop ∨ busy.stop = base.start) :
    subtractIntervals [base] [busy] = [base] := by
  have hmerge : mergeIntervals [busy] = [busy] := rfl
  unfold subtractIntervals
  rw [if_neg (by simp)]
  rw [hmerge]
  show subtractWindow [busy] base ++ [] = [base]
  unfold subtractWindow
  have hcond : busy.stop ≤ base.start ∨ busy.start ≥ base.stop := by
    rcases htouch with h | h
    · right; omega
    · left; omega
  simp only [List.foldl_cons, List.foldl_nil, List.flatMap_cons, List.flatMap_nil]
  rw [cutOne, if_pos hcond]
  simp [hbase]

/-- Witness for `subtract_touching_no_cut` at base `[0,60)`, busy `[60,120)`. -/
theorem subtract_touching_no_cut_witness :
    (0 : Int) < 60 ∧ subtractIntervals [⟨0, 60⟩] [⟨60, 120⟩] = [⟨0, 60⟩] :=
  ⟨by decide, subtract_touching_no_cut ⟨0, 60⟩ ⟨60, 120⟩ (by decide) (Or.inl (by decide))⟩

/-! ### Geometry of the interval difference -/

/-- Intervals `a` and `b` do not overlap in time (the negation of the overlap test
`a.start < b.end AND b.start < a.end` used throughout the code base). -/
def IvlDisj (a b : Ivl) : Prop := ¬ (a.start < b.stop ∧ b.start < a.stop)

instance (a b : Ivl) : Decidable (IvlDisj a b) := by unfold IvlDisj; infer_instance

/-- Interval `inner` lies inside `outer`. -/
def IvlWithin (inner outer : Ivl) : Prop :=
  outer.start ≤ inner.start ∧ inner.stop ≤ outer.stop

instance (a b : Ivl) : Decidable (IvlWithin a b) := by unfold IvlWithin; infer_instance

theorem IvlWithin.refl (a : Ivl) : IvlWithin a a := ⟨le_refl _, le_refl _⟩

theorem IvlWithin.trans {a b c : Ivl} (h1 : IvlWithin a b) (h2 : IvlWithin b c) :
    IvlWithin a c := ⟨le_trans h2.1 h1.1, le_trans h1.2 h2.2⟩

theorem IvlDisj.symm {a b : Ivl} (h : IvlDisj a b) : IvlDisj b a := by
  unfold IvlDisj at *; omega

theorem IvlDisj.of_within_left {a a' b : Ivl} (hw : IvlWithin a' a) (h : IvlDisj a b) :
    IvlDisj a' b := by
  unfold IvlDisj at *; unfold IvlWithin at hw; omega

theorem IvlDisj.of_within_right {a b b' : Ivl} (hw : IvlWithin b' b) (h : IvlDisj a b) :
    IvlDisj a b' := by
  unfold IvlDisj at *; unfold IvlWithin at hw; omega

theorem cutOne_within (taken cursor : Ivl) : ∀ p ∈ cutOne taken cursor, IvlWithin p cursor := by
  intro p hp
  unfold cutOne at hp
  unfold IvlWithin
  by_cases h1 : taken.stop ≤ cursor.start ∨ taken.start ≥ cursor.stop
  · rw [if_pos h1] at hp
    simp at hp
    subst hp
    omega
  · rw [if_neg h1] at hp
    rcases List.mem_append.mp hp with hp | hp <;>
      [by_cases h2 : taken.start > cursor.start; by_cases h2 : taken.stop < cursor.stop] <;>
      simp [h2] at hp <;> subst hp <;> simp <;> omega

theorem cutOne_disj (taken cursor : Ivl) : ∀ p ∈ cutOne taken cursor, IvlDisj p taken := by
  intro p hp
  unfold cutOne at hp
  unfold IvlDisj
  by_cases h1 : taken.stop ≤ cursor.start ∨ taken.start ≥ cursor.stop
  · rw [if_pos h1] at hp
    simp at hp
    subst hp
    omega
  · rw [if_neg h1] at hp
    rcases List.mem_append.mp hp with hp | hp <;>
      [by_cases h2 : taken.start > cursor.start; by_cases h2 : taken.stop < cursor.stop] <;>
      simp [h2] at hp <;> subst hp <;> simp <;> omega

/-- One pass of the inner loop of `_subtract`. -/
def cutPass (cursors : List Ivl) (taken : Ivl) : List Ivl :=
  (cursors.flatMap (cutOne taken)).filter (fun c => c.start < c.stop)

theorem subtractWindow_eq_foldl (busyMerged : List Ivl) (window : Ivl) :
    subtractWindow busyMerged window = busyMerged.foldl cutPass [window] := rfl

theorem cutPass_characterize (cursors : List Ivl) (taken : Ivl) :
    ∀ c ∈ cutPass cursors taken,
      (∃ cur ∈ cursors, IvlWithin c cur) ∧ IvlDisj c taken := by
  intro c hc
  unfold cutPass at hc
  have hc' := List.mem_of_mem_filter hc
  obtain ⟨cur, hcur, hmem⟩ := List.mem_flatMap.mp hc'
  exact ⟨⟨cur, hcur, cutOne_within taken cur c hmem⟩, cutOne_disj taken cur c hmem⟩

theorem foldl_cutPass_characterize (busyMerged : List Ivl) :
    ∀ cursors, ∀ c ∈ busyMerged.foldl cutPass cursors,
      (∃ cur ∈ cursors, IvlWithin c cur) ∧ ∀ t ∈ busyMerged, IvlDisj c t := by
  induction busyMerged with
  | nil =>
      intro cursors c hc
      exact ⟨⟨c, hc, IvlWithin.refl c⟩, by simp⟩
  | cons t rest ih =>
      intro cursors c hc
      rw [List.foldl_cons] at hc
      obtain ⟨⟨cur', hcur', hwithin'⟩, hdisj2⟩ := ih (cutPass cursors t) c hc
      obtain ⟨⟨cur, hcur, hwithin⟩, hdisj⟩ := cutPass_characterize cursors t cur' hcur'
      refine ⟨⟨cur, hcur, hwithin'.trans hwithin⟩, ?_⟩
      intro u hu
      rcases List.mem_cons.mp hu with rfl | hu
      · exact (hdisj.symm.of_within_right hwithin').symm
      · exact hdisj2 u hu

/-- Every interval produced by `_subtract` lies inside one of the base windows. -/
theorem subtract_within (base busy : List Ivl) :
    ∀ c ∈ subtractIntervals base busy, ∃ w ∈ base, IvlWithin c w := by
  intro c hc
  unfold subtractIntervals at hc
  by_cases h : busy.isEmpty
  · rw [if_pos h] at hc
    exact ⟨c, hc, IvlWithin.refl c⟩
  · rw [if_neg h] at hc
    obtain ⟨w, hw, hmem⟩ := List.mem_flatMap.mp hc
    rw [subtractWindow_eq_foldl] at hmem
    obtain ⟨⟨cur, hcur, hwithin⟩, _⟩ := foldl_cutPass_characterize _ _ c hmem
    obtain rfl := List.mem_singleton.mp hcur
    exact ⟨cur, hw, hwithin⟩

/-- Every interval produced by `_subtract` avoids every merged busy interval. -/
theorem subtract_disj_mergedBusy (base busy : List Ivl) (hbusy : ¬ busy.isEmpty) :
    ∀ c ∈ subtractIntervals base busy, ∀ t ∈ mergeIntervals busy, IvlDisj c t := by
  intro c hc t ht
  unfold subtractIntervals at hc
  rw [if_neg hbusy] at hc
  obtain ⟨w, _, hmem⟩ := List.mem_flatMap.mp hc
  rw [subtractWindow_eq_foldl] at hmem
  exact (foldl_cutPass_characterize _ _ c hmem).2 t ht

theorem Ivl.minutes_eq_ediv (i : Ivl) : i.minutes = (i.stop - i.start) / 60 :=
  Int.fdiv_eq_ediv _ (by norm_num)

/-! ### Pairwise disjointness through the interval difference -/

theorem pairwise_flatMap_of {α β : Type} (R : β → β → Prop) (S : α → α → Prop)
    (f : α → List β) (l : List α)
    (hl : List.Pairwise S l) (hf : ∀ a ∈ l, List.Pairwise R (f a))
    (hcross : ∀ a b, S a b → ∀ x ∈ f a, ∀ y ∈ f b, R x y) :
    List.Pairwise R (l.flatMap f) := by
  induction l with
  | nil => simp
  | cons a rest ih =>
      rw [List.flatMap_cons]
      rw [List.pairwise_append]
      refine ⟨hf a (by simp), ih hl.of_cons (fun b hb => hf b (by simp [hb])), ?_⟩
      intro x hx y hy
      obtain ⟨b, hb, hyb⟩ := List.mem_flatMap.mp hy
      exact hcross a b (List.rel_of_pairwise_cons hl hb) x hx y hyb

theorem cutOne_pairwise (taken cursor : Ivl) (hp : taken.start < taken.stop) :
    List.Pairwise IvlDisj (cutOne taken cursor) := by
  unfold cutOne
  by_cases h1 : taken.stop ≤ cursor.start ∨ taken.start ≥ cursor.stop
  · simp [h1]
  · rw [if_neg h1]
    by_cases h2 : taken.start > cursor.start <;> by_cases h3 : taken.stop < cursor.stop <;>
      simp [h2, h3, IvlDisj] <;> omega

theorem cutPass_pairwise (cursors : List Ivl) (taken : Ivl)
    (hp : taken.start < taken.stop) (hc : List.Pairwise IvlDisj cursors) :
    List.Pairwise IvlDisj (cutPass cursors taken) := by
  unfold cutPass
  apply List.Pairwise.sublist (List.filter_sublist _)
  refine pairwise_flatMap_of IvlDisj IvlDisj (cutOne taken) cursors hc
    (fun a _ => cutOne_pairwise taken a hp) ?_
  intro a b hab x hx y hy
  exact (((hab.of_within_left (cutOne_within taken a x hx)).symm.of_within_left
    (cutOne_within taken b y hy)).symm)

theorem foldl_cutPass_pairwise (busyMerged : List Ivl)
    (hbusy : ∀ t ∈ busyMerged, t.start < t.stop) :
    ∀ cursors, List.Pairwise IvlDisj cursors →
      List.Pairwise IvlDisj (busyMerged.foldl cutPass cursors) := by
  induction busyMerged with
  | nil => intro cursors hc; exact hc
  | cons t rest ih =>
      intro cursors hc
      rw [List.foldl_cons]
      exact ih (fun u hu => hbusy u (by simp [hu])) _
        (cutPass_pairwise cursors t (hbusy t (by simp)) hc)

theorem mem_insertByStart {x y : Ivl} {l : List Ivl} :
    y ∈ insertByStart x l ↔ y = x ∨ y ∈ l := by
  induction l with
  | nil => simp [insertByStart]
  | cons z zs ih =>
      by_cases h : x.start ≤ z.start
      · simp [insertByStart, h]
      · simp [insertByStart, h, ih]
        tauto

theorem mem_sortByStart {x : Ivl} {l : List Ivl} : x ∈ sortByStart l ↔ x ∈ l := by
  induction l with
  | nil => simp [sortByStart]
  | cons y ys ih =>
      show x ∈ insertByStart y (sortByStart ys) ↔ _
      rw [mem_insertByStart]
      simp [ih]

theorem mergeRun_proper (t : List Ivl) (cur : Ivl)
    (hcur : cur.start < cur.stop) (ht : ∀ i ∈ t, i.start < i.stop) :
    ∀ m ∈ mergeRun cur t, m.start < m.stop := by
  induction t generalizing cur with
  | nil => simpa [mergeRun] using hcur
  | cons i rest ih =>
      intro m hm
      by_cases h : i.start ≤ cur.stop
      · rw [mergeRun, if_pos h] at hm
        refine ih ⟨cur.start, max cur.stop i.stop⟩ ?_ (fun j hj => ht j (by simp [hj])) m hm
        simp only
        omega
      · rw [mergeRun, if_neg h] at hm
        rcases List.mem_cons.mp hm with rfl | hm
        · exact hcur
        · exact ih i (ht i (by simp)) (fun j hj => ht j (by simp [hj])) m hm

theorem mergeIntervals_proper (l : List Ivl) (hl : ∀ b ∈ l, b.start < b.stop) :
    ∀ m ∈ mergeIntervals l, m.start < m.stop := by
  unfold mergeIntervals
  cases h : sortByStart l with
  | nil => simp
  | cons first rest =>
      have hmem : ∀ x ∈ first :: rest, x.start < x.stop := by
        intro x hx
        apply hl
        rw [← mem_sortByStart (l := l), h]
        exact hx
      exact mergeRun_proper rest first (hmem first (by simp)) (fun i hi => hmem i (by simp [hi]))

/-- Subtraction keeps pairwise-disjoint base windows pairwise disjoint, provided
every busy interval is well-formed (`start < end`, which calendar blocks
guarantee). -/
theorem subtract_pairwise (base busy : List Ivl)
    (hbase : List.Pairwise IvlDisj base)
    (hbusy : ∀ b ∈ busy, b.start < b.stop) :
    List.Pairwise IvlDisj (subtractIntervals base busy) := by
  unfold subtractIntervals
  by_cases h : busy.isEmpty
  · rwa [if_pos h]
  · rw [if_neg h]
    have hmerged : ∀ t ∈ mergeIntervals busy, t.start < t.stop :=
      mergeIntervals_proper busy hbusy
    refine pairwise_flatMap_of IvlDisj IvlDisj _ base hbase ?_ ?_
    · intro w _
      rw [subtractWindow_eq_foldl]
      exact foldl_cutPass_pairwise _ hmerged [w] (by simp)
    · intro w1 w2 hw x hx y hy
      rw [subtractWindow_eq_foldl] at hx hy
      obtain ⟨⟨cx, hcx, hwx⟩, _⟩ := foldl_cutPass_characterize _ _ x hx
      obtain ⟨⟨cy, hcy, hwy⟩, _⟩ := foldl_cutPass_characterize _ _ y hy
      obtain rfl := List.mem_singleton.mp hcx
      obtain rfl := List.mem_singleton.mp hcy
      exact ((hw.of_within_left hwx).symm.of_within_left hwy).symm

/-! ### Work windows and free slots -/

/-- One date of the scheduling horizon, as `_get_work_window_for_day`
(scheduler.py lines 82-111) sees it after the weekday lookup: the configured
working window `[wstart, wstop)` of that date (absent dates contribute no
`DaySpec` at all, matching `match is None → []`), and the optional lunch
window.  `HH:MM` strings and timezone attachment are resolved into instants. -/
structure DaySpec where
  wstart : Int
  wstop : Int
  lunch : Option (Int × Int)
deriving DecidableEq, Repr

/-- Embeds the clipping and lunch subtraction of `_get_work_window_for_day`:
clip the day window to the horizon, return nothing if empty, else subtract the
configured lunch interval. -/
def workWindowForDay (d : DaySpec) (horizonStart horizonStop : Int) : List Ivl :=
  let dayStart := max d.wstart horizonStart
  let dayStop := min d.wstop horizonStop
  if dayStop ≤ dayStart then []
  else
    match d.lunch with
    | none => [⟨dayStart, dayStop⟩]
    | some (ls, le2) => subtractIntervals [⟨dayStart, dayStop⟩] [⟨ls, le2⟩]

/-- Embeds `_free_intervals` (scheduler.py lines 137-157): per-day work windows
over the horizon, minus the busy calendar blocks, keeping slots of ≥15 minutes. -/
def freeIntervals (days : List DaySpec) (busy : List Ivl)
    (horizonStart horizonStop : Int) : List Ivl :=
  (subtractIntervals (days.flatMap (fun d => workWindowForDay d horizonStart horizonStop)) busy).filter
    (fun i => 15 ≤ i.minutes)

theorem mergeIntervals_singleton (b : Ivl) : mergeIntervals [b] = [b] := rfl

theorem workWindowForDay_within (d : DaySpec) (hs he : Int) :
    ∀ w ∈ workWindowForDay d hs he,
      IvlWithin w ⟨max d.wstart hs, min d.wstop he⟩ ∧
        (∀ ls le2, d.lunch = some (ls, le2) → IvlDisj w ⟨ls, le2⟩) := by
  intro w hw
  unfold workWindowForDay at hw
  by_cases hclip : min d.wstop he ≤ max d.wstart hs
  · simp [hclip] at hw
  · rw [if_neg hclip] at hw
    cases hl : d.lunch with
    | none =>
        rw [hl] at hw
        obtain rfl := List.mem_singleton.mp hw
        exact ⟨IvlWithin.refl _, by simp [hl]⟩
    | some p =>
        obtain ⟨ls, le2⟩ := p
        rw [hl] at hw
        obtain ⟨w', hw', hwithin⟩ := subtract_within _ _ w hw
        obtain rfl := List.mem_singleton.mp hw'
        refine ⟨hwithin, ?_⟩
        intro ls' le2' hl'
        obtain ⟨rfl, rfl⟩ : ls = ls' ∧ le2 = le2' := by
          injection hl' with h
          exact ⟨congrArg Prod.fst h, congrArg Prod.snd h⟩
        have hdm := subtract_disj_mergedBusy _ [⟨ls, le2⟩] (by simp) w hw
        exact hdm ⟨ls, le2⟩ (by rw [mergeIntervals_singleton]; exact List.mem_singleton.mpr rfl)

/-- Lunch windows that the profile configures with `start < end`. -/
def DayWF (d : DaySpec) : Prop := ∀ ls le2, d.lunch = some (ls, le2) → ls < le2

theorem workWindowForDay_pairwise (d : DaySpec) (hs he : Int) (hwf : DayWF d) :
    List.Pairwise IvlDisj (workWindowForDay d hs he) := by
  unfold workWindowForDay
  by_cases hclip : min d.wstop he ≤ max d.wstart hs
  · simp [hclip]
  · rw [if_neg hclip]
    cases hl : d.lunch with
    | none => simp
    | some p =>
        obtain ⟨ls, le2⟩ := p
        exact subtract_pairwise _ _ (by simp) (by simpa using hwf ls le2 hl)

theorem windows_pairwise (days : List DaySpec) (hs he : Int)
    (hdays : List.Pairwise (fun d e => IvlDisj ⟨d.wstart, d.wstop⟩ ⟨e.wstart, e.wstop⟩) days)
    (hwf : ∀ d ∈ days, DayWF d) :
    List.Pairwise IvlDisj (days.flatMap (fun d => workWindowForDay d hs he)) := by
  refine pairwise_flatMap_of IvlDisj _ _ days hdays
    (fun d hd => workWindowForDay_pairwise d hs he (hwf d hd)) ?_
  intro d e hde x hx y hy
  have hxw := (workWindowForDay_within d hs he x hx).1
  have hyw := (workWindowForDay_within e hs he y hy).1
  have hxd : IvlWithin x ⟨d.wstart, d.wstop⟩ :=
    hxw.trans ⟨by simp, by simp⟩
  have hyd : IvlWithin y ⟨e.wstart, e.wstop⟩ :=
    hyw.trans ⟨by simp, by simp⟩
  exact ((hde.of_within_left hxd).symm.of_within_left hyd).symm

theorem freeIntervals_pairwise (days : List DaySpec) (busy : List Ivl) (hs he : Int)
    (hdays : List.Pairwise (fun d e => IvlDisj ⟨d.wstart, d.wstop⟩ ⟨e.wstart, e.wstop⟩) days)
    (hwf : ∀ d ∈ days, DayWF d)
    (hbusy : ∀ b ∈ busy, b.start < b.stop) :
    List.Pairwise IvlDisj (freeIntervals days busy hs he) := by
  unfold freeIntervals
  apply List.Pairwise.sublist (List.filter_sublist _)
  exact subtract_pairwise _ _ (windows_pairwise days hs he hdays hwf) hbusy

theorem freeIntervals_within (days : List DaySpec) (busy : List Ivl) (hs he : Int) :
    ∀ f ∈ freeIntervals days busy hs he,
      ∃ d ∈ days, IvlWithin f ⟨max d.wstart hs, min d.wstop he⟩ ∧
        (∀ ls le2, d.lunch = some (ls, le2) → IvlDisj f ⟨ls, le2⟩) := by
  intro f hf
  unfold freeIntervals at hf
  have hf' := List.mem_of_mem_filter hf
  obtain ⟨w, hw, hwithin⟩ := subtract_within _ _ f hf'
  obtain ⟨d, hd, hwd⟩ := List.mem_flatMap.mp hw
  obtain ⟨hwin, hlunch⟩ := workWindowForDay_within d hs he w hwd
  refine ⟨d, hd, hwithin.trans hwin, ?_⟩
  intro ls le2 hl
  exact ((hlunch ls le2 hl).symm.of_within_right hwithin).symm

theorem freeIntervals_proper (days : List DaySpec) (busy : List Ivl) (hs he : Int) :
    ∀ f ∈ freeIntervals days busy hs he, f.start < f.stop := by
  intro f hf
  unfold freeIntervals at hf
  have := List.of_mem_filter hf
  simp only [decide_eq_true_eq] at this
  rw [Ivl.minutes_eq_ediv] at this
  omega

/-! ### The allocator -/

/-- Embeds the `Task` ORM row (models.py) in the fields the scheduler and the
candidate query read. -/
structure SchedTask where
  id : String
  title : String
  status : String
  due : Option Int
  effortMinutes : Int
  priority : String
deriving DecidableEq, Repr

/-- One `create_block` change payload as built by `_allocate_changes`
(scheduler.py lines 272-285): the `block` dict flattened into fields. -/
structure Chg where
  kind : String
  btype : String
  title : String
  start : Int
  stop : Int
  taskId : Option String
  locked : Bool
deriving DecidableEq, Repr

/-- Required minutes: `max(slot_minutes, ceil(effort_minutes / slot_minutes) * slot_minutes)`
capped at `2 * 60` (scheduler.py lines 261-262); `(e + s - 1).fdiv s` is the
integer ceiling `⌈e/s⌉` for `s > 0`. -/
def requiredMinutes (effortMinutes slot : Int) : Int :=
  min (max slot ((effortMinutes + slot - 1).fdiv slot * slot)) (2 * 60)

/-- The loop of `_pick_interval` (scheduler.py lines 217-241): skip intervals
shorter than `required`, otherwise keep the index with the strictly smallest
score.  The strategy-specific score expression (timestamps, lateness penalty,
deep-work bonus) is the parameter `score`; every theorem below holds for all
of them. -/
def pickGo (required : Int) (score : Ivl → ℚ) :
    List Ivl → Nat → Option (Nat × ℚ) → Option (Nat × ℚ)
  | [], _, best => best
  | i :: rest, idx, best =>
      if i.minutes < required then pickGo required score rest (idx + 1) best
      else
        match best with
        | none => pickGo required score rest (idx + 1) (some (idx, score i))
        | some (bi, bs) =>
            if score i < bs then pickGo required score rest (idx + 1) (some (idx, score i))
            else pickGo required score rest (idx + 1) (some (bi, bs))

/-- Embeds `_pick_interval`: the index of the best fitting free interval. -/
def pickInterval (intervals : List Ivl) (required : Int) (score : Ivl → ℚ) : Option Nat :=
  (pickGo required score intervals 0 none).map Prod.fst

/-- A fitting index of `L`: in range, and the interval there is long enough. -/
def FitsAt (L : List Ivl) (required : Int) (j : Nat) : Prop :=
  ∃ h : j < L.length, required ≤ (L.get ⟨j, h⟩).minutes

theorem pickGo_fits (required : Int) (score : Ivl → ℚ) (L : List Ivl) :
    ∀ l idx0 best, L.drop idx0 = l →
      (∀ bi bs, best = some (bi, bs) → FitsAt L required bi) →
      ∀ j s, pickGo required score l idx0 best = some (j, s) → FitsAt L required j := by
  intro l
  induction l with
  | nil =>
      intro idx0 best _ hbest j s hrun
      exact hbest j s hrun
  | cons i rest ih =>
      intro idx0 best hdrop hbest j s hrun
      have hidx : idx0 < L.length := by
        by_contra hge
        rw [List.drop_eq_nil_of_le (by omega)] at hdrop
        exact List.cons_ne_nil i rest hdrop.symm
      have heq := List.drop_eq_getElem_cons (l := L) (n := idx0) hidx
      rw [hdrop] at heq
      injection heq with hgd hdr
      have hgetd : L.get ⟨idx0, hidx⟩ = i := by simpa [List.get_eq_getElem] using hgd.symm
      have hdrop' : L.drop (idx0 + 1) = rest := hdr.symm
      have hfit0 : ¬ i.minutes < required → FitsAt L required idx0 :=
        fun hge => ⟨hidx, by rw [hgetd]; omega⟩
      cases best with
      | none =>
          rw [pickGo] at hrun
          by_cases hshort : i.minutes < required
          · rw [if_pos hshort] at hrun
            exact ih (idx0 + 1) none hdrop' hbest j s hrun
          · rw [if_neg hshort] at hrun
            exact ih (idx0 + 1) _ hdrop'
              (fun bi bs hb => by
                injection hb with hb'
                obtain ⟨rfl, rfl⟩ : bi = idx0 ∧ bs = score i :=
                  ⟨(congrArg Prod.fst hb').symm, (congrArg Prod.snd hb').symm⟩
                exact hfit0 hshort) j s hrun
      | some p =>
          obtain ⟨bi, bs⟩ := p
          rw [pickGo] at hrun
          by_cases hshort : i.minutes < required
          · rw [if_pos hshort] at hrun
            exact ih (idx0 + 1) _ hdrop' hbest j s hrun
          · rw [if_neg hshort] at hrun
            by_cases hlt : score i < bs
            · rw [if_pos hlt] at hrun
              exact ih (idx0 + 1) _ hdrop'
                (fun bi' bs' hb => by
                  injection hb with hb'
                  obtain ⟨rfl, rfl⟩ : bi' = idx0 ∧ bs' = score i :=
                    ⟨(congrArg Prod.fst hb').symm, (congrArg Prod.snd hb').symm⟩
                  exact hfit0 hshort) j s hrun
            · rw [if_neg hlt] at hrun
              exact ih (idx0 + 1) _ hdrop'
                (fun bi' bs' hb => by
                  injection hb with hb'
                  obtain ⟨rfl, rfl⟩ : bi' = bi ∧ bs' = bs :=
                    ⟨(congrArg Prod.fst hb').symm, (congrArg Prod.snd hb').symm⟩
                  exact hbest _ _ rfl) j s hrun

theorem pickInterval_fits (intervals : List Ivl) (required : Int) (score : Ivl → ℚ)
    (j : Nat) (h : pickInterval intervals required score = some j) :
    FitsAt intervals required j := by
  unfold pickInterval at h
  cases hrun : pickGo required score intervals 0 none with
  | none => rw [hrun] at h; simp at h
  | some p =>
      obtain ⟨j', s⟩ := p
      rw [hrun] at h
      simp at h
      subst h
      exact pickGo_fits required score intervals intervals 0 none (by simp)
        (fun _ _ hb => by simp at hb) j' s hrun

theorem pickGo_some_ne_none (required : Int) (score : Ivl → ℚ) :
    ∀ l idx b, pickGo required score l idx (some b) ≠ none := by
  intro l
  induction l with
  | nil => intro idx b h; simp [pickGo] at h
  | cons i rest ih =>
      intro idx b h
      rw [pickGo] at h
      by_cases hshort : i.minutes < required
      · rw [if_pos hshort] at h; exact ih _ _ h
      · rw [if_neg hshort] at h
        obtain ⟨bi, bs⟩ := b
        by_cases hlt : score i < bs
        · rw [if_pos hlt] at h; exact ih _ _ h
        · rw [if_neg hlt] at h; exact ih _ _ h

/-- The pick `_pick_interval` returns `None` exactly when no free interval is long
enough for the request. -/
theorem pickInterval_none_iff (intervals : List Ivl) (required : Int) (score : Ivl → ℚ) :
    pickInterval intervals required score = none ↔
      ∀ i ∈ intervals, i.minutes < required := by
  unfold pickInterval
  have key : ∀ l idx, pickGo required score l idx none = none ↔ ∀ i ∈ l, i.minutes < required := by
    intro l
    induction l with
    | nil => intro idx; simp [pickGo]
    | cons i rest ih =>
        intro idx
        rw [pickGo]
        by_cases hshort : i.minutes < required
        · rw [if_pos hshort]
          rw [ih (idx + 1)]
          constructor
          · intro hall j hj
            rcases List.mem_cons.mp hj with rfl | hj
            · exact hshort
            · exact hall j hj
          · intro hall j hj
            exact hall j (by simp [hj])
        · rw [if_neg hshort]
          constructor
          · intro h
            exact absurd h (pickGo_some_ne_none required score rest (idx + 1) _)
          · intro hall
            exact absurd (hall i (by simp)) hshort
  rw [Option.map_eq_none']
  exact key intervals 0

/-- Embeds the placement loop of `_allocate_changes` (scheduler.py lines
260-291).  `order` stands for `_task_order(strategy, ·)` and `score` for the
strategy score of `_pick_interval`; both involve float timestamp arithmetic
and are parameters, so every theorem holds for all three strategies.
`available.getD picked ⟨0, 0⟩` is `available[picked]`; the pick is always in
range. -/
def allocGo (slot : Int) (score : Option Int → Ivl → ℚ) :
    List SchedTask → List Ivl → List Chg
  | [], _ => []
  | task :: rest, available =>
      let required := requiredMinutes task.effortMinutes slot
      match pickInterval available required (score task.due) with
      | none => allocGo slot score rest available
      | some picked =>
          let chosen := available.getD picked ⟨0, 0⟩
          let bstart := chosen.start
          let bstop := bstart + 60 * required
          { kind := "create_block"
            btype := if required < 90 then "task_block" else "focus_block"
            title := task.title ++ " 집중 블록"
            start := bstart
            stop := bstop
            taskId := some task.id
            locked := false } ::
            allocGo slot score rest
              (if chosen.stop ≤ bstop then available.eraseIdx picked
               else available.set picked ⟨bstop, chosen.stop⟩)

/-- Embeds `_allocate_changes`: early return on no tasks, value copy of the
free intervals, then the placement loop over the ordered tasks. -/
def allocateChanges (tasks : List SchedTask) (intervals : List Ivl) (slot : Int)
    (order : List SchedTask → List SchedTask) (score : Option Int → Ivl → ℚ) : List Chg :=
  if tasks.isEmpty then []
  else allocGo slot score (order tasks) (intervals.map (fun i => ⟨i.start, i.stop⟩))

theorem requiredMinutes_pos (e s : Int) (hs : 1 ≤ s) : 1 ≤ requiredMinutes e s := by
  unfold requiredMinutes
  omega

theorem getD_eq_get (l : List Ivl) (n : Nat) (d : Ivl) (h : n < l.length) :
    l.getD n d = l.get ⟨n, h⟩ := by
  simp [List.getD_eq_getElem?_getD, List.getElem?_eq_getElem h, List.get_eq_getElem]

/-- Every change `_allocate_changes` emits carries the shape the source builds:
kind `create_block`, the task link, unlocked, length exactly the required
minutes, and the 90-minute type threshold. -/
theorem allocGo_shape (slot : Int) (score : Option Int → Ivl → ℚ) :
    ∀ tasks avail, ∀ c ∈ allocGo slot score tasks avail,
      ∃ t ∈ tasks, c.kind = "create_block" ∧ c.taskId = some t.id ∧
        c.title = t.title ++ " 집중 블록" ∧ c.locked = false ∧
        c.stop = c.start + 60 * requiredMinutes t.effortMinutes slot ∧
        c.btype = (if requiredMinutes t.effortMinutes slot < 90
                   then "task_block" else "focus_block") := by
  intro tasks
  induction tasks with
  | nil => intro avail c hc; simp [allocGo] at hc
  | cons task rest ih =>
      intro avail c hc
      rw [allocGo] at hc
      cases hpick : pickInterval avail (requiredMinutes task.effortMinutes slot) (score task.due) with
      | none =>
          rw [hpick] at hc
          obtain ⟨t, ht, hrest⟩ := ih avail c hc
          exact ⟨t, by simp [ht], hrest⟩
      | some picked =>
          rw [hpick] at hc
          rcases List.mem_cons.mp hc with rfl | hc'
          · exact ⟨task, by simp, rfl, rfl, rfl, rfl, by simp, rfl⟩
          · obtain ⟨t, ht, hrest⟩ := ih _ c hc'
            exact ⟨t, by simp [ht], hrest⟩

/-- Every change `_allocate_changes` emits lies inside one of the free
intervals it was given (the `available` list only ever shrinks). -/
theorem allocGo_within (slot : Int) (score : Option Int → Ivl → ℚ) (hslot : 1 ≤ slot)
    (I : List Ivl) :
    ∀ tasks avail, (∀ a ∈ avail, ∃ i ∈ I, IvlWithin a i) →
      ∀ c ∈ allocGo slot score tasks avail,
        ∃ i ∈ I, IvlWithin ⟨c.start, c.stop⟩ i := by
  intro tasks
  induction tasks with
  | nil => intro avail _ c hc; simp [allocGo] at hc
  | cons task rest ih =>
      intro avail hA c hc
      rw [allocGo] at hc
      cases hpick : pickInterval avail (requiredMinutes task.effortMinutes slot) (score task.due) with
      | none =>
          rw [hpick] at hc
          exact ih avail hA c hc
      | some picked =>
          rw [hpick] at hc
          obtain ⟨hlt, hfit⟩ := pickInterval_fits _ _ _ _ hpick
          have hgetD : avail.getD picked ⟨0, 0⟩ = avail.get ⟨picked, hlt⟩ :=
            getD_eq_get avail picked ⟨0, 0⟩ hlt
          set chosen := avail.get ⟨picked, hlt⟩ with hchosen
          have hchmem : chosen ∈ avail := List.get_mem avail picked hlt
          have hreq : 60 * requiredMinutes task.effortMinutes slot ≤ chosen.stop - chosen.start := by
            rw [Ivl.minutes_eq_ediv] at hfit
            omega
          rcases List.mem_cons.mp hc with rfl | hc'
          · obtain ⟨i, hi, hwithin⟩ := hA chosen hchmem
            refine ⟨i, hi, ?_⟩
            refine (IvlWithin.trans ?_ hwithin)
            unfold IvlWithin
            dsimp only
            rw [hgetD]
            omega
          · refine ih _ ?_ c hc'
            intro a ha
            rw [hgetD] at ha
            by_cases hsplit : chosen.stop ≤ chosen.start + 60 * requiredMinutes task.effortMinutes slot
            · rw [if_pos hsplit] at ha
              exact hA a (List.Sublist.mem ha (List.eraseIdx_sublist avail picked))
            · rw [if_neg hsplit] at ha
              rcases List.mem_or_eq_of_mem_set ha with ha' | rfl
              · exact hA a ha'
              · obtain ⟨i, hi, hwithin⟩ := hA chosen hchmem
                refine ⟨i, hi, IvlWithin.trans ?_ hwithin⟩
                have hr1 := requiredMinutes_pos task.effortMinutes slot hslot
                unfold IvlWithin
                dsimp only
                omega

/-- After placing a block `B` at the start of the interval at index `k`, both
possible updates of the `available` list (delete the slot, or keep its
remainder `piece`) stay pairwise disjoint and disjoint from `B`. -/
theorem alloc_step_facts :
    ∀ (l : List Ivl) (k : Nat) (hk : k < l.length) (B piece : Ivl),
      List.Pairwise IvlDisj l →
      IvlWithin B (l.get ⟨k, hk⟩) → IvlWithin piece (l.get ⟨k, hk⟩) →
      IvlDisj B piece →
      (List.Pairwise IvlDisj (l.eraseIdx k) ∧ ∀ a ∈ l.eraseIdx k, IvlDisj B a) ∧
        (List.Pairwise IvlDisj (l.set k piece) ∧ ∀ a ∈ l.set k piece, IvlDisj B a) := by
  intro l
  induction l with
  | nil => intro k hk; simp at hk
  | cons x xs ih =>
      intro k hk B piece hpw hB hpiece hBp
      have hxall : ∀ a ∈ xs, IvlDisj x a := fun a ha => List.rel_of_pairwise_cons hpw ha
      cases k with
      | zero =>
          refine ⟨⟨hpw.of_cons, ?_⟩, ?_, ?_⟩
          · intro a ha
            exact (hxall a ha).symm.of_within_right hB |>.symm
          · rw [List.set_cons_zero]
            refine List.pairwise_cons.mpr ⟨?_, hpw.of_cons⟩
            intro a ha
            exact ((hxall a ha).symm.of_within_right hpiece).symm
          · intro a ha
            rw [List.set_cons_zero] at ha
            rcases List.mem_cons.mp ha with rfl | ha'
            · exact hBp
            · exact ((hxall a ha').symm.of_within_right hB).symm
      | succ k' =>
          have hk' : k' < xs.length := by simpa using hk
          have hget : (x :: xs).get ⟨k' + 1, hk⟩ = xs.get ⟨k', hk'⟩ := rfl
          rw [hget] at hB hpiece
          have hmemk : xs.get ⟨k', hk'⟩ ∈ xs := List.get_mem xs k' hk'
          obtain ⟨⟨he1, he2⟩, hs1, hs2⟩ := ih k' hk' B piece hpw.of_cons hB hpiece hBp
          have hxB : IvlDisj B x := ((hxall _ hmemk).of_within_right hB).symm
          refine ⟨⟨?_, ?_⟩, ?_, ?_⟩
          · rw [List.eraseIdx_cons_succ]
            refine List.pairwise_cons.mpr ⟨?_, he1⟩
            intro a ha
            exact hxall a (List.Sublist.mem ha (List.eraseIdx_sublist xs k'))
          · intro a ha
            rw [List.eraseIdx_cons_succ] at ha
            rcases List.mem_cons.mp ha with rfl | ha'
            · exact hxB
            · exact he2 a ha'
          · rw [List.set_cons_succ]
            refine List.pairwise_cons.mpr ⟨?_, hs1⟩
            intro a ha
            rcases List.mem_or_eq_of_mem_set ha with ha' | rfl
            · exact hxall a ha'
            · exact (hxall _ hmemk).of_within_right hpiece
          · intro a ha
            rw [List.set_cons_succ] at ha
            rcases List.mem_cons.mp ha with rfl | ha'
            · exact hxB
            · exact hs2 a ha'

/-- The blocks `_allocate_changes` places never overlap one another: each block
is carved out of a distinct part of the pairwise-disjoint free intervals. -/
theorem allocGo_pairwise (slot : Int) (score : Option Int → Ivl → ℚ) (hslot : 1 ≤ slot) :
    ∀ tasks avail, List.Pairwise IvlDisj avail →
      List.Pairwise (fun c1 c2 => IvlDisj ⟨c1.start, c1.stop⟩ ⟨c2.start, c2.stop⟩)
        (allocGo slot score tasks avail) := by
  intro tasks
  induction tasks with
  | nil => intro avail _; simp [allocGo]
  | cons task rest ih =>
      intro avail hA
      rw [allocGo]
      cases hpick : pickInterval avail (requiredMinutes task.effortMinutes slot) (score task.due) with
      | none => exact ih avail hA
      | some picked =>
          obtain ⟨hlt, hfit⟩ := pickInterval_fits _ _ _ _ hpick
          have hgetD : avail.getD picked ⟨0, 0⟩ = avail.get ⟨picked, hlt⟩ :=
            getD_eq_get avail picked ⟨0, 0⟩ hlt
          set chosen := avail.get ⟨picked, hlt⟩ with hchosen
          have hreq : 60 * requiredMinutes task.effortMinutes slot ≤ chosen.stop - chosen.start := by
            rw [Ivl.minutes_eq_ediv] at hfit
            omega
          have hr1 := requiredMinutes_pos task.effortMinutes slot hslot
          set B : Ivl := ⟨chosen.start, chosen.start + 60 * requiredMinutes task.effortMinutes slot⟩
            with hBdef
          set piece : Ivl := ⟨chosen.start + 60 * requiredMinutes task.effortMinutes slot, chosen.stop⟩
            with hpieceDef
          have hBw : IvlWithin B chosen := ⟨le_refl _, by rw [hBdef]; dsimp only; omega⟩
          have hpw : IvlWithin piece chosen := ⟨by rw [hpieceDef]; dsimp only; omega, le_refl _⟩
          have hBp : IvlDisj B piece := by rw [hBdef, hpieceDef]; unfold IvlDisj; dsimp only; omega
          obtain ⟨⟨he1, he2⟩, hs1, hs2⟩ := alloc_step_facts avail picked hlt B piece hA hBw hpw hBp
          have hnext :
              List.Pairwise IvlDisj
                (if chosen.stop ≤ chosen.start + 60 * requiredMinutes task.effortMinutes slot
                 then avail.eraseIdx picked
                 else avail.set picked piece) := by
            by_cases hsplit : chosen.stop ≤ chosen.start + 60 * requiredMinutes task.effortMinutes slot
            · rwa [if_pos hsplit]
            · rwa [if_neg hsplit]
          have hdisjB :
              ∀ a ∈ (if chosen.stop ≤ chosen.start + 60 * requiredMinutes task.effortMinutes slot
                     then avail.eraseIdx picked
                     else avail.set picked piece), IvlDisj B a := by
            by_cases hsplit : chosen.stop ≤ chosen.start + 60 * requiredMinutes task.effortMinutes slot
            · rw [if_pos hsplit]; exact he2
            · rw [if_neg hsplit]; exact hs2
          dsimp only
          rw [hgetD]
          refine List.pairwise_cons.mpr ⟨?_, ih _ hnext⟩
          intro c' hc'
          obtain ⟨a, ha, hwa⟩ := allocGo_within slot score hslot _ rest _
            (fun a ha => ⟨a, ha, IvlWithin.refl a⟩) c' hc'
          exact (hdisjB a ha).of_within_right hwa

theorem map_mk_eta (l : List Ivl) : l.map (fun i => (⟨i.start, i.stop⟩ : Ivl)) = l := by
  have h : (fun i : Ivl => (⟨i.start, i.stop⟩ : Ivl)) = id := funext fun i => rfl
  rw [h, List.map_id]

theorem allocateChanges_mem_allocGo (tasks : List SchedTask) (intervals : List Ivl)
    (slot : Int) (order : List SchedTask → List SchedTask) (score : Option Int → Ivl → ℚ) :
    ∀ c ∈ allocateChanges tasks intervals slot order score,
      c ∈ allocGo slot score (order tasks) intervals := by
  intro c hc
  unfold allocateChanges at hc
  by_cases h : tasks.isEmpty
  · rw [if_pos h] at hc; simp at hc
  · rw [if_neg h, map_mk_eta] at hc; exact hc

/-- C7.  The allocation loop of the Scheduler: every placed block's length is
exactly `required = min(max(slot, ceil(effort/slot)·slot), 120)` minutes with
the `task_block`/`focus_block` 90-minute threshold and the task link; a task
for which no remaining interval is long enough is skipped without error; and
when an interval is picked, the block starts at that interval's start and ends
`required` minutes later. -/
theorem allocator_contract
    (tasks : List SchedTask) (intervals : List Ivl) (slot : Int)
    (order : List SchedTask → List SchedTask) (score : Option Int → Ivl → ℚ)
    (horder : ∀ t ∈ order tasks, t ∈ tasks) :
    (∀ c ∈ allocateChanges tasks intervals slot order score,
        ∃ t ∈ tasks, c.kind = "create_block" ∧ c.taskId = some t.id ∧
          c.stop = c.start + 60 * requiredMinutes t.effortMinutes slot ∧
          c.btype = (if requiredMinutes t.effortMinutes slot < 90
                     then "task_block" else "focus_block")) ∧
    (∀ (task : SchedTask) (rest : List SchedTask) (avail : List Ivl),
        (∀ i ∈ avail, i.minutes < requiredMinutes task.effortMinutes slot) →
        allocGo slot score (task :: rest) avail = allocGo slot score rest avail) ∧
    (∀ (task : SchedTask) (rest : List SchedTask) (avail : List Ivl) (picked : Nat),
        pickInterval avail (requiredMinutes task.effortMinutes slot) (score task.due) =
          some picked →
        ∃ h : picked < avail.length, ∃ cs,
          allocGo slot score (task :: rest) avail =
            { kind := "create_block"
              btype := if requiredMinutes task.effortMinutes slot < 90
                       then "task_block" else "focus_block"
              title := task.title ++ " 집중 블록"
              start := (avail.get ⟨picked, h⟩).start
              stop := (avail.get ⟨picked, h⟩).start + 60 * requiredMinutes task.effortMinutes slot
              taskId := some task.id
              locked := false } :: cs) := by
  refine ⟨?_, ?_, ?_⟩
  · intro c hc
    obtain ⟨t, ht, h1, h2, _, _, h5, h6⟩ :=
      allocGo_shape slot score (order tasks) intervals c
        (allocateChanges_mem_allocGo tasks intervals slot order score c hc)
    exact ⟨t, horder t ht, h1, h2, h5, h6⟩
  · intro task rest avail hnone
    rw [allocGo, (pickInterval_none_iff avail _ (score task.due)).mpr hnone]
  · intro task rest avail picked hpick
    obtain ⟨hlt, _⟩ := pickInterval_fits _ _ _ _ hpick
    refine ⟨hlt, ?_⟩
    rw [allocGo, hpick]
    dsimp only
    rw [getD_eq_get avail picked ⟨0, 0⟩ hlt]
    exact ⟨_, rfl⟩

/-- Witness for `allocator_contract`: a 100-minute-effort task with 30-minute
slots needs 120 minutes, so a single 10-minute free interval is skipped. -/
theorem allocator_contract_witness :
    allocGo 30 (fun _ _ => (0 : ℚ))
        [⟨"t1", "T", "todo", none, 100, "medium"⟩] [⟨0, 600⟩] =
      allocGo 30 (fun _ _ => (0 : ℚ)) [] [⟨0, 600⟩] :=
  (allocator_contract [⟨"t1", "T", "todo", none, 100, "medium"⟩] [] 30 id (fun _ _ => 0)
      (fun t ht => ht)).2.1
    ⟨"t1", "T", "todo", none, 100, "medium"⟩ [] [⟨0, 600⟩] (by decide)

/-- C5.  Every block a proposal emits lies inside the (horizon-clipped) work
window of some configured day and does not intersect that day's lunch window:
the allocator only carves blocks out of the free intervals, which are produced
inside the work windows minus lunch. -/
theorem emitted_blocks_in_work_windows
    (days : List DaySpec) (busy : List Ivl) (hs he slot : Int)
    (tasks : List SchedTask) (order : List SchedTask → List SchedTask)
    (score : Option Int → Ivl → ℚ) (hslot : 1 ≤ slot) :
    ∀ c ∈ allocateChanges tasks (freeIntervals days busy hs he) slot order score,
      ∃ d ∈ days, max d.wstart hs ≤ c.start ∧ c.stop ≤ min d.wstop he ∧
        ∀ ls le2, d.lunch = some (ls, le2) → ¬ (ls < c.stop ∧ c.start < le2) := by
  intro c hc
  have hcg := allocateChanges_mem_allocGo tasks _ slot order score c hc
  obtain ⟨f, hf, hwithin⟩ :=
    allocGo_within slot score hslot (freeIntervals days busy hs he) (order tasks)
      (freeIntervals days busy hs he) (fun a ha => ⟨a, ha, IvlWithin.refl a⟩) c hcg
  obtain ⟨d, hd, hfw, hflunch⟩ := freeIntervals_within days busy hs he f hf
  refine ⟨d, hd, ?_, ?_, ?_⟩
  · exact le_trans hfw.1 hwithin.1
  · exact le_trans hwithin.2 hfw.2
  · intro ls le2 hl
    have hdisj : IvlDisj ⟨c.start, c.stop⟩ ⟨ls, le2⟩ :=
      ((hflunch ls le2 hl).symm.of_within_right hwithin).symm
    unfold IvlDisj at hdisj
    dsimp only at hdisj
    omega

/-- Witness for `emitted_blocks_in_work_windows`: a 60-minute task is placed
at 09:00-10:00 of a 09:00-18:00 day (seconds of the epoch day) with lunch
12:00-13:00, inside the work window and clear of lunch. -/
theorem emitted_blocks_in_work_windows_witness :
    ∃ d ∈ [(⟨32400, 64800, some (43200, 46800)⟩ : DaySpec)],
      max d.wstart 0 ≤ (32400 : Int) ∧ (36000 : Int) ≤ min d.wstop 86400 ∧
        ∀ ls le2, d.lunch = some (ls, le2) → ¬ (ls < 36000 ∧ (32400 : Int) < le2) :=
  emitted_blocks_in_work_windows [⟨32400, 64800, some (43200, 46800)⟩] [] 0 86400 30
    [⟨"t1", "T", "todo", none, 60, "medium"⟩] id (fun _ _ => 0) (by norm_num)
    ⟨"create_block", "task_block", "T 집중 블록", 32400, 36000, some "t1", false⟩ (by decide)

/-! ### The proposal candidate query (C2) -/

/-- Embeds the candidate query of `generate_proposals` (scheduler.py lines
340-346): the base statement always filters `Task.status IN ('todo',
'in_progress')`; a truthy (non-empty) `task_ids` list adds the id filter,
otherwise the due filter `due IS NULL OR due <= horizon_to + 7 days` is added
(7 days = 604800 seconds). -/
def candidateTasks (tasks : List SchedTask) (taskIds : Option (List String))
    (horizonTo : Int) : List SchedTask :=
  let base := tasks.filter (fun t => t.status == "todo" || t.status == "in_progress")
  match taskIds with
  | some ids =>
      if ids.isEmpty then
        base.filter (fun t => match t.due with
          | none => true
          | some d => d ≤ horizonTo + 7 * 86400)
      else base.filter (fun t => ids.contains t.id)
  | none =>
      base.filter (fun t => match t.due with
        | none => true
        | some d => d ≤ horizonTo + 7 * 86400)

/-- Counterexample to C2 as stated.  A `blocked` task is non-terminal (its
status is neither `done` nor `canceled`) and has no due, so the claim places
it in the candidate set, but the code's query keeps only `todo`/`in_progress`
tasks; likewise an explicitly listed id whose task is `done` is claimed to be
a candidate but is filtered out. -/
theorem candidate_query_counterexample :
    (("blocked" : String) ∉ (["done", "canceled"] : List String)) ∧
      candidateTasks [⟨"t1", "T", "blocked", none, 60, "medium"⟩] none 0 = [] ∧
      candidateTasks [⟨"t2", "U", "done", none, 60, "medium"⟩] (some ["t2"]) 0 = [] := by
  refine ⟨by decide, ?_, ?_⟩ <;> rfl

/-- C2 (amended).  Characterization of the candidate set the code computes:
always restricted to status `todo` or `in_progress` (so `blocked` tasks are
excluded even though non-terminal, also when their ids are listed explicitly);
a non-empty explicit id list then selects by id, and an absent or empty id
list selects by `due` absent or at most `horizon_to + 7` days. -/
theorem candidate_query_characterization (tasks : List SchedTask)
    (taskIds : Option (List String)) (horizonTo : Int) (t : SchedTask) :
    t ∈ candidateTasks tasks taskIds horizonTo ↔
      t ∈ tasks ∧ (t.status = "todo" ∨ t.status = "in_progress") ∧
        ((∃ ids, taskIds = some ids ∧ ids ≠ [] ∧ t.id ∈ ids) ∨
          ((taskIds = none ∨ taskIds = some []) ∧
            ∀ d, t.due = some d → d ≤ horizonTo + 7 * 86400)) := by
  unfold candidateTasks
  cases taskIds with
  | none =>
      simp only [List.mem_filter, Bool.or_eq_true, beq_iff_eq]
      constructor
      · rintro ⟨⟨hmem, hstat⟩, hdue⟩
        refine ⟨hmem, hstat, Or.inr ⟨by simp, ?_⟩⟩
        intro d hd
        rw [hd] at hdue
        simpa using hdue
      · rintro ⟨hmem, hstat, h | ⟨_, hdue⟩⟩
        · obtain ⟨ids, hids, _⟩ := h
          exact absurd hids (by simp)
        · refine ⟨⟨hmem, hstat⟩, ?_⟩
          cases hd : t.due with
          | none => simp
          | some d => simpa using hdue d hd
  | some ids =>
      dsimp only
      by_cases hempty : ids.isEmpty
      · obtain rfl : ids = [] := List.isEmpty_iff.mp hempty
        rw [if_pos (show (([] : List String).isEmpty = true) from rfl)]
        simp only [List.mem_filter, Bool.or_eq_true, beq_iff_eq]
        constructor
        · rintro ⟨⟨hmem, hstat⟩, hdue⟩
          refine ⟨hmem, hstat, Or.inr ⟨by simp, ?_⟩⟩
          intro d hd
          rw [hd] at hdue
          simpa using hdue
        · rintro ⟨hmem, hstat, h | ⟨_, hdue⟩⟩
          · obtain ⟨ids', hids, hne, _⟩ := h
            injection hids with hids'
            exact absurd hids'.symm hne
          · refine ⟨⟨hmem, hstat⟩, ?_⟩
            cases hd : t.due with
            | none => simp
            | some d => simpa using hdue d hd
      · rw [if_neg hempty]
        simp only [List.mem_filter, Bool.or_eq_true, beq_iff_eq]
        constructor
        · rintro ⟨⟨hmem, hstat⟩, hin⟩
          refine ⟨hmem, hstat, Or.inl ⟨ids, rfl, ?_, ?_⟩⟩
          · intro h; rw [h] at hempty; simp at hempty
          · simpa [List.contains_iff_exists_mem_beq, beq_iff_eq] using hin
        · rintro ⟨hmem, hstat, h | ⟨hcase, _⟩⟩
          · obtain ⟨ids', hids, _, hinid⟩ := h
            injection hids with hids'
            subst hids'
            exact ⟨⟨hmem, hstat⟩, by simpa [List.contains_iff_exists_mem_beq, beq_iff_eq] using hinid⟩
          · rcases hcase with hnone | hsome
            · exact absurd hnone (by simp)
            · injection hsome with h'
              rw [h'] at hempty
              simp at hempty

/-! ### Calendar state machine (routers and assistant handlers) -/

/-- Embeds the `CalendarBlock` ORM row (models.py lines 100-114); `type` is
`btype` and `end` is `stop`.  Database-generated primary keys are modelled by
a fresh `Nat` counter. -/
structure Block where
  id : Nat
  btype : String
  title : String
  start : Int
  stop : Int
  taskId : Option String
  locked : Bool
  source : String
  outlookEventId : Option String
  version : Int
deriving DecidableEq, Repr

/-- Embeds `SchedulingProposal` with its owned `SchedulingChange` rows. -/
structure Proposal where
  id : Nat
  status : String
  changes : List Chg
deriving DecidableEq, Repr

/-- Embeds the `ApprovalRequest` row in the fields the scheduling flow uses
(`payload` reduced to the referenced proposal/candidate id). -/
structure Approval where
  atype : String
  status : String
  payloadRef : Option Nat
deriving DecidableEq, Repr

/-- The persisted state the calendar endpoints and handlers act on. -/
structure AppState where
  blocks : List Block
  proposals : List Proposal
  approvals : List Approval
  nextId : Nat
deriving DecidableEq, Repr

/-- The overlap test used everywhere:
`CalendarBlock.start < end AND CalendarBlock.end > start`. -/
def overlapsAny (blocks : List Block) (bstart bstop : Int) : Bool :=
  blocks.any (fun b => decide (b.start < bstop) && decide (b.stop > bstart))

/-- The overlap test of `_check_overlap` with `exclude_id` (calendar.py 17-23)
and of `_move_event_from_message` (assistant.py 1354-1361). -/
def overlapsAnyExcept (blocks : List Block) (excludeId : Nat) (bstart bstop : Int) : Bool :=
  blocks.any (fun b => b.id != excludeId && decide (b.start < bstop) && decide (b.stop > bstart))

/-- Schema `CalendarBlockCreate` (schemas.py lines 117-123): no `source` and no
`outlook_event_id` field, so created rows take the column defaults
(`source="aawo"`). -/
structure BlockCreate where
  btype : String
  title : String
  start : Int
  stop : Int
  taskId : Option String
  locked : Bool
deriving DecidableEq, Repr

/-- Schema `CalendarBlockPatch` (schemas.py lines 126-132) under `exclude_unset`
semantics: `none` means the field was not sent.  There is no `source` field:
a patch can never change a block's source. -/
structure BlockPatch where
  title : Option String
  start : Option Int
  stop : Option Int
  taskId : Option (Option String)
  locked : Option Bool
deriving DecidableEq, Repr

/-- Embeds `create_block` (calendar.py lines 39-50): 422 on inverted interval,
409 on overlap with any existing block, else insert with source `aawo`.
Failed requests leave the state unchanged. -/
def createBlockEndpoint (s : AppState) (p : BlockCreate) : AppState :=
  if p.stop ≤ p.start then s
  else if overlapsAny s.blocks p.start p.stop then s
  else { s with
    blocks := s.blocks ++
      [⟨s.nextId, p.btype, p.title, p.start, p.stop, p.taskId, p.locked, "aawo", none, 1⟩]
    nextId := s.nextId + 1 }

/-- Embeds `patch_block` (calendar.py lines 61-84): 404 on missing id, 422 on
inverted interval, overlap re-check (excluding the row itself) only when the
times change, then field update and version bump. -/
def patchBlockEndpoint (s : AppState) (bid : Nat) (p : BlockPatch) : AppState :=
  match s.blocks.find? (fun b => b.id == bid) with
  | none => s
  | some row =>
      let newStart := p.start.getD row.start
      let newStop := p.stop.getD row.stop
      if newStop ≤ newStart then s
      else if (newStart != row.start || newStop != row.stop) &&
          overlapsAnyExcept s.blocks row.id newStart newStop then s
      else { s with
        blocks := s.blocks.map (fun b =>
          if b.id == row.id then
            { b with
              title := p.title.getD b.title
              start := newStart
              stop := newStop
              taskId := p.taskId.getD b.taskId
              locked := p.locked.getD b.locked
              version := b.version + 1 }
          else b) }

/-- Python `str.lower()` on the title characters. -/
def pyLower (s : String) : String := ⟨s.data.map Char.toLower⟩

/-- Python `str.strip()`. -/
def pyStrip (s : String) : String :=
  ⟨((s.data.dropWhile Char.isWhitespace).reverse.dropWhile Char.isWhitespace).reverse⟩

/-- Python `needle in hay` on strings: contiguous substring. -/
def startsWithChars : List Char → List Char → Bool
  | [], _ => true
  | _ :: _, [] => false
  | a :: as2, b :: bs => a == b && startsWithChars as2 bs

/-- Python substring containment (`kw in title.lower()`). -/
def containsSub (needle : List Char) : List Char → Bool
  | [] => needle.isEmpty
  | b :: bs => startsWithChars needle (b :: bs) || containsSub needle bs

/-- Stable insertion by `start`, embedding `order_by(CalendarBlock.start.asc())`. -/
def insertBlockByStart (x : Block) : List Block → List Block
  | [] => [x]
  | y :: ys => if x.start ≤ y.start then x :: y :: ys else y :: insertBlockByStart x ys

def sortBlocksByStart (l : List Block) : List Block := l.foldr insertBlockByStart []

/-- Embeds `_create_event_from_message` (assistant.py lines 908-982): clamp the
duration to `[15, 480]` minutes (`0` falls back to 60), refuse on conflict
with any existing block, else insert an unlocked `other` block sourced `aawo`.
The Outlook mirroring after the insert does not change local calendar state. -/
def createEventHandler (s : AppState) (title : String) (startOpt : Option Int)
    (durationMinutes : Int) : AppState :=
  match startOpt with
  | none => s
  | some bstart =>
      let eventTitle := if pyStrip title = "" then "새 일정" else pyStrip title
      let duration := max 15 (min (8 * 60) (if durationMinutes = 0 then 60 else durationMinutes))
      let bstop := bstart + 60 * duration
      if overlapsAny s.blocks bstart bstop then s
      else { s with
        blocks := s.blocks ++
          [⟨s.nextId, "other", eventTitle, bstart, bstop, none, false, "aawo", none, 1⟩]
        nextId := s.nextId + 1 }

/-- Embeds `_find_event_by_keyword` (assistant.py lines 1317-1328): exact
lowercase title match over the start-ordered blocks first, then substring. -/
def findEventByKeyword (blocks : List Block) (keyword : Option String) : Option Block :=
  match keyword with
  | none => none
  | some kw0 =>
      if kw0 = "" then none
      else
        let kw := pyLower (pyStrip kw0)
        let ordered := sortBlocksByStart blocks
        match ordered.find? (fun b => b.title != "" && kw == pyLower b.title) with
        | some b => some b
        | none => ordered.find? (fun b =>
            b.title != "" && containsSub kw.data (pyLower b.title).data)

/-- Embeds `_move_event_from_message` (assistant.py lines 1331-1386): resolve
by keyword, refuse `external` blocks, compute the new end from `new_end` or a
clamped duration (falling back to the block's current length, then 60),
re-check overlap against all other blocks, then update start/end. -/
def moveEventHandler (s : AppState) (keyword : Option String) (newStart newEnd : Option Int)
    (durationMinutes : Option Int) : AppState :=
  match newStart with
  | none => s
  | some ns =>
      match findEventByKeyword s.blocks keyword with
      | none => s
      | some target =>
          if target.source = "external" then s
          else
            let blockLen := if (target.stop - target.start).fdiv 60 = 0 then 60
                            else (target.stop - target.start).fdiv 60
            let dm := match durationMinutes with
                      | some d => if d = 0 then blockLen else d
                      | none => blockLen
            let durationSecs := match newEnd with
                                | some ne => if ns < ne then ne - ns
                                             else 60 * max 15 (min (8 * 60) dm)
                                | none => 60 * max 15 (min (8 * 60) dm)
            let bstop := ns + durationSecs
            if overlapsAnyExcept s.blocks target.id ns bstop then s
            else { s with
              blocks := s.blocks.map (fun b =>
                if b.id == target.id then
                  { b with start := ns, stop := bstop, version := b.version + 1 }
                else b) }

/-- Embeds the Executor's `_delete_event` handler (assistant.py lines
1585-1623): resolve the block by exact, then substring, title match over the
start-ordered calendar and delete it locally.  The handler performs no
`outlook_event_id` check and no remote deletion; the returned id is the
deleted block. -/
def deleteEventHandler (blocks : List Block) (keyword : Option String) :
    List Block × Option Nat :=
  match keyword with
  | none => (blocks, none)
  | some kw0 =>
      if kw0 = "" then (blocks, none)
      else
        let kw := pyLower (pyStrip kw0)
        let ordered := sortBlocksByStart blocks
        let target :=
          match ordered.find? (fun b => b.title != "" && kw == pyLower b.title) with
          | some b => some b
          | none => ordered.find? (fun b =>
              b.title != "" && containsSub kw.data (pyLower b.title).data)
        match target with
        | none => (blocks, none)
        | some t => (blocks.filter (fun b => b.id != t.id), some t.id)

/-- Embeds `delete_block` (calendar.py lines 87-111): a block with a non-blank
`outlook_event_id` must be deleted remotely first; a disconnected mirror is a
409 and a failed remote deletion a 502, both leaving the local block in
place.  `remoteDeleteFails` abstracts the Graph call raising or reporting
`failed > 0`. -/
def deleteBlockEndpoint (blocks : List Block) (graphConnected remoteDeleteFails : Bool)
    (bid : Nat) : Except Nat (List Block × Bool) :=
  match blocks.find? (fun b => b.id == bid) with
  | none => Except.ok (blocks, false)
  | some row =>
      let ev := pyStrip ((row.outlookEventId).getD "")
      if ev ≠ "" then
        if ¬ graphConnected then Except.error 409
        else if remoteDeleteFails then Except.error 502
        else Except.ok (blocks.filter (fun b => b.id != row.id), true)
      else Except.ok (blocks.filter (fun b => b.id != row.id), true)

/-- Embeds the change loop of `apply_proposal` (scheduler.py lines 401-433).
The session runs with `autoflush=False` (db.py), so every overlap SELECT in
the loop sees only the blocks already in the database when the request began:
the check is against the entry snapshot `blocks`, not against rows added
earlier in the same loop.  Created rows are sourced `aawo` with fresh ids. -/
def applyProposalCore (blocks : List Block) : List Chg → Nat → List Block
  | [], _ => []
  | c :: rest, nextId =>
      if c.kind ≠ "create_block" then applyProposalCore blocks rest nextId
      else if overlapsAny blocks c.start c.stop then applyProposalCore blocks rest nextId
      else ⟨nextId, c.btype, c.title, c.start, c.stop, c.taskId, c.locked, "aawo", none, 1⟩ ::
        applyProposalCore blocks rest (nextId + 1)

/-- Embeds `apply_schedule_proposal` (scheduling.py lines 40-98) composed with
`apply_proposal` (scheduler.py lines 397-442): 404 on missing proposal, 409 on
non-draft status, an approval request under autonomy L0-L2 without
`approved`, else commit the non-conflicting `create_block` changes and mark
the proposal `applied`.  The returned `Bool` is the response's `applied`
field; errors (`Except.error`) leave the state unchanged at the caller. -/
def applyScheduleProposal (s : AppState) (pid : Nat) (approved : Bool)
    (autonomy : String) : Except Nat (AppState × Bool × List Block) :=
  match s.proposals.find? (fun p => p.id == pid) with
  | none => Except.error 404
  | some proposal =>
      if proposal.status ≠ "draft" then Except.error 409
      else if (autonomy = "L0" ∨ autonomy = "L1" ∨ autonomy = "L2") ∧ ¬ approved then
        Except.ok
          ({ s with approvals := s.approvals ++ [⟨"reschedule", "pending", some proposal.id⟩] },
            false, [])
      else
        let created := applyProposalCore s.blocks proposal.changes s.nextId
        Except.ok
          ({ s with
              blocks := s.blocks ++ created
              proposals := s.proposals.map (fun p =>
                if p.id == pid then { p with status := "applied" } else p)
              nextId := s.nextId + created.length },
            true, created)

/-- Embeds `_fetch_busy_intervals` (scheduler.py lines 114-134): every calendar
block intersecting the horizon, as an interval. -/
def fetchBusyIntervals (blocks : List Block) (hs he : Int) : List Ivl :=
  (blocks.filter (fun b => decide (b.start < he) && decide (b.stop > hs))).map
    (fun b => ⟨b.start, b.stop⟩)

/-- Embeds `generate_proposals` (scheduler.py lines 331-394) for the state
machine: nothing happens without candidate tasks or free intervals, else one
`draft` proposal per strategy, each holding the `create_block` changes of
`_allocate_changes` over the same free-interval list.  Each strategy is its
`_task_order`/`_pick_interval` score pair. -/
def generateProposalsOp (s : AppState) (days : List DaySpec) (hs he : Int)
    (tasks : List SchedTask) (slot : Int)
    (strategies : List ((List SchedTask → List SchedTask) × (Option Int → Ivl → ℚ))) :
    AppState :=
  if tasks.isEmpty then s
  else
    let intervals := freeIntervals days (fetchBusyIntervals s.blocks hs he) hs he
    if intervals.isEmpty then s
    else
      strategies.foldl
        (fun st strat =>
          { st with
            proposals := st.proposals ++
              [⟨st.nextId, "draft", allocateChanges tasks intervals slot strat.1 strat.2⟩]
            nextId := st.nextId + 1 })
        s

/-- The operations of C1 that can touch committed calendar blocks, plus the
proposal generator that creates the proposals `applyProposal` commits. -/
inductive Op where
  | createBlock (p : BlockCreate)
  | patchBlock (bid : Nat) (p : BlockPatch)
  | createEvent (title : String) (startOpt : Option Int) (durationMinutes : Int)
  | moveEvent (keyword : Option String) (newStart newEnd : Option Int)
      (durationMinutes : Option Int)
  | genProposals (days : List DaySpec) (hs he : Int) (tasks : List SchedTask) (slot : Int)
      (strategies : List ((List SchedTask → List SchedTask) × (Option Int → Ivl → ℚ)))
  | applyProposal (pid : Nat) (approved : Bool) (autonomy : String)

/-- One request against the service; failed requests leave the state as it
was. -/
def step (s : AppState) : Op → AppState
  | Op.createBlock p => createBlockEndpoint s p
  | Op.patchBlock bid p => patchBlockEndpoint s bid p
  | Op.createEvent t st d => createEventHandler s t st d
  | Op.moveEvent k ns ne dm => moveEventHandler s k ns ne dm
  | Op.genProposals days hs he tasks slot strats =>
      generateProposalsOp s days hs he tasks slot strats
  | Op.applyProposal pid approved autonomy =>
      match applyScheduleProposal s pid approved autonomy with
      | Except.error _ => s
      | Except.ok (s', _, _) => s'

/-- Well-formed requests: proposal generation runs with a valid slot size
(the schema enforces `slot_minutes ∈ [15, 60]`) and a sane profile: work
windows of distinct days do not overlap and configured lunch windows are
non-empty. -/
def OpWF : Op → Prop
  | Op.genProposals days _ _ _ slot _ =>
      1 ≤ slot ∧ (∀ d ∈ days, DayWF d) ∧
        List.Pairwise (fun d e => IvlDisj ⟨d.wstart, d.wstop⟩ ⟨e.wstart, e.wstop⟩) days
  | _ => True

/-- No two committed `aawo`-sourced blocks overlap. -/
def AawoDisj (blocks : List Block) : Prop :=
  List.Pairwise (fun a b => a.source = "aawo" → b.source = "aawo" →
    IvlDisj ⟨a.start, a.stop⟩ ⟨b.start, b.stop⟩) blocks

/-- Auxiliary shape of stored proposals: their `create_block` changes are
pairwise disjoint, well-formed intervals (`generate_proposals` only ever
stores such changes; `apply_proposal` relies on this because its overlap
re-check reads the pre-apply snapshot). -/
def ChgOK (p : Proposal) : Prop :=
  (∀ c ∈ p.changes, c.kind = "create_block" → c.start < c.stop) ∧
    List.Pairwise (fun c1 c2 => c1.kind = "create_block" → c2.kind = "create_block" →
      IvlDisj ⟨c1.start, c1.stop⟩ ⟨c2.start, c2.stop⟩) p.changes

/-- The state invariant: well-formed block intervals, fresh distinct ids,
pairwise disjoint `aawo` blocks, and well-formed stored proposals. -/
def StateInv (s : AppState) : Prop :=
  (∀ b ∈ s.blocks, b.start < b.stop ∧ b.id < s.nextId) ∧
    List.Pairwise (fun a b => a.id ≠ b.id) s.blocks ∧
    AawoDisj s.blocks ∧
    (∀ p ∈ s.proposals, ChgOK p)

/-- C3.  The Executor's `delete_event` handler deletes the local block even
when the block carries an external event id and the mirror is disconnected:
it never consults `outlook_event_id` at all.  The `delete_block` endpoint on
the same state instead fails with 409 and keeps the block, which is the
remote-first protocol the specification requires of the handler. -/
theorem delete_event_handler_orphans_remote :
    (deleteEventHandler
        [⟨1, "other", "Design Review", 0, 3600, none, false, "aawo", some "ev-1", 1⟩]
        (some "design review")).1 = [] ∧
      (deleteEventHandler
          [⟨1, "other", "Design Review", 0, 3600, none, false, "aawo", some "ev-1", 1⟩]
          (some "design review")).2 = some 1 ∧
      deleteBlockEndpoint
          [⟨1, "other", "Design Review", 0, 3600, none, false, "aawo", some "ev-1", 1⟩]
          false false 1 = Except.error 409 :=
  ⟨rfl, rfl, rfl⟩

theorem find?_map_status (l : List Proposal) (pid : Nat) :
    (l.map (fun p => if p.id == pid then { p with status := "applied" } else p)).find?
        (fun p => p.id == pid) =
      (l.find? (fun p => p.id == pid)).map
        (fun p => if p.id == pid then { p with status := "applied" } else p) := by
  induction l with
  | nil => rfl
  | cons q rest ih =>
      by_cases h : q.id == pid
      · rw [List.map_cons, if_pos h]
        rw [List.find?_cons_of_pos (p := fun r : Proposal => r.id == pid) _ (by simpa using h)]
        rw [List.find?_cons_of_pos (p := fun r : Proposal => r.id == pid) _ h]
        rw [Option.map_some', if_pos h]
      · rw [List.map_cons, if_neg h]
        rw [List.find?_cons_of_neg (p := fun r : Proposal => r.id == pid) _ h]
        rw [List.find?_cons_of_neg (p := fun r : Proposal => r.id == pid) _ h]
        exact ih

/-- C4.  Applying a proposal whose status is not `draft` fails with 409 before
any mutation (an error result leaves the caller's state untouched), and a
successful application marks the proposal `applied`, so re-applying the same
proposal always fails with 409 and changes nothing: application is idempotent
at the proposal level. -/
theorem apply_nondraft_rejected_and_idempotent (s : AppState) (pid : Nat)
    (approved : Bool) (autonomy : String) :
    (∀ p, s.proposals.find? (fun q => q.id == pid) = some p → p.status ≠ "draft" →
        applyScheduleProposal s pid approved autonomy = Except.error 409) ∧
    (∀ s' created approved2 autonomy2,
        applyScheduleProposal s pid approved autonomy = Except.ok (s', true, created) →
        applyScheduleProposal s' pid approved2 autonomy2 = Except.error 409) := by
  constructor
  · intro p hfind hst
    unfold applyScheduleProposal
    rw [hfind]
    dsimp only
    rw [if_pos hst]
  · intro s' created approved2 autonomy2 hrun
    unfold applyScheduleProposal at hrun
    cases hfind : s.proposals.find? (fun q => q.id == pid) with
    | none =>
        rw [hfind] at hrun
        exact absurd hrun (by simp)
    | some proposal =>
        rw [hfind] at hrun
        dsimp only at hrun
        by_cases hst : proposal.status ≠ "draft"
        · rw [if_pos hst] at hrun
          exact absurd hrun (by simp)
        · rw [if_neg hst] at hrun
          by_cases happ : (autonomy = "L0" ∨ autonomy = "L1" ∨ autonomy = "L2") ∧ ¬ approved
          · rw [if_pos happ] at hrun
            simp at hrun
          · rw [if_neg happ] at hrun
            have hs' := (Except.ok.inj hrun)
            have hs'' : s' =
                { s with
                  blocks := s.blocks ++ applyProposalCore s.blocks proposal.changes s.nextId
                  proposals := s.proposals.map (fun p =>
                    if p.id == pid then { p with status := "applied" } else p)
                  nextId := s.nextId +
                    (applyProposalCore s.blocks proposal.changes s.nextId).length } :=
              (congrArg Prod.fst hs').symm
            unfold applyScheduleProposal
            rw [hs'']
            dsimp only
            rw [find?_map_status, hfind]
            rw [Option.map_some']
            have hid : (proposal.id == pid) = true := by
              simpa using List.find?_some hfind
            rw [if_pos hid]
            dsimp only
            rw [if_pos (by simp)]

/-- Witness for `apply_nondraft_rejected_and_idempotent`: a concrete state with
one already-applied proposal is rejected with 409. -/
theorem apply_nondraft_rejected_and_idempotent_witness :
    applyScheduleProposal ⟨[], [⟨7, "applied", []⟩], [], 8⟩ 7 true "L4" =
      Except.error 409 :=
  (apply_nondraft_rejected_and_idempotent ⟨[], [⟨7, "applied", []⟩], [], 8⟩ 7 true "L4").1
    ⟨7, "applied", []⟩ rfl (by decide)

theorem applyProposalCore_all_conflict (blocks : List Block) :
    ∀ (changes : List Chg) (nextId : Nat),
      (∀ c ∈ changes, c.kind = "create_block" →
        overlapsAny blocks c.start c.stop = true) →
      applyProposalCore blocks changes nextId = [] := by
  intro changes
  induction changes with
  | nil => intro nextId _; rfl
  | cons c rest ih =>
      intro nextId hall
      rw [applyProposalCore]
      by_cases hkind : c.kind ≠ "create_block"
      · rw [if_pos hkind]
        exact ih nextId (fun d hd => hall d (by simp [hd]))
      · rw [if_neg hkind]
        rw [hall c (by simp) (not_not.mp hkind), if_pos rfl]
        exact ih nextId (fun d hd => hall d (by simp [hd]))

/-- C10.  Applying a draft proposal in which every `create_block` change
conflicts with the live calendar still succeeds: it creates nothing, leaves
the calendar exactly as it was, and marks the proposal `applied` (terminal). -/
theorem apply_all_conflicting_is_empty_but_applied (s : AppState) (pid : Nat)
    (autonomy : String) (p : Proposal)
    (hfind : s.proposals.find? (fun q => q.id == pid) = some p)
    (hdraft : p.status = "draft")
    (hconf : ∀ c ∈ p.changes, c.kind = "create_block" →
      overlapsAny s.blocks c.start c.stop = true) :
    ∃ s', applyScheduleProposal s pid true autonomy = Except.ok (s', true, []) ∧
      s'.blocks = s.blocks ∧
      s'.proposals.find? (fun q => q.id == pid) = some { p with status := "applied" } := by
  have hcore : applyProposalCore s.blocks p.changes s.nextId = [] :=
    applyProposalCore_all_conflict s.blocks p.changes s.nextId hconf
  unfold applyScheduleProposal
  rw [hfind]
  dsimp only
  rw [if_neg (by simp [hdraft])]
  rw [if_neg (by simp)]
  rw [hcore]
  refine ⟨_, rfl, by simp, ?_⟩
  rw [find?_map_status, hfind, Option.map_some']
  rw [if_pos (List.find?_some hfind)]

/-- Witness for `apply_all_conflicting_is_empty_but_applied`: one existing
block `[0, 3600)` and a draft proposal whose single change collides with it. -/
theorem apply_all_conflicting_is_empty_but_applied_witness :
    ∃ s', applyScheduleProposal
        ⟨[⟨1, "other", "Busy", 0, 3600, none, false, "external", none, 1⟩],
          [⟨2, "draft", [⟨"create_block", "task_block", "T 집중 블록", 600, 4200, some "t1", false⟩]⟩],
          [], 3⟩ 2 true "L4" = Except.ok (s', true, []) ∧
      s'.blocks = [⟨1, "other", "Busy", 0, 3600, none, false, "external", none, 1⟩] ∧
      s'.proposals.find? (fun q => q.id == 2) =
        some ⟨2, "applied", [⟨"create_block", "task_block", "T 집중 블록", 600, 4200, some "t1", false⟩]⟩ :=
  apply_all_conflicting_is_empty_but_applied
    ⟨[⟨1, "other", "Busy", 0, 3600, none, false, "external", none, 1⟩],
      [⟨2, "draft", [⟨"create_block", "task_block", "T 집중 블록", 600, 4200, some "t1", false⟩]⟩],
      [], 3⟩ 2 "L4"
    ⟨2, "draft", [⟨"create_block", "task_block", "T 집중 블록", 600, 4200, some "t1", false⟩]⟩
    rfl rfl (by decide)

/-! ### Meeting action-item processing (C8) -/

/-- One extracted action-item draft (`ActionItemDraft` of the extractor):
float confidences are modelled as rationals. -/
structure Draft where
  title : String
  assigneeName : Option String
  due : Option Int
  effortMinutes : Int
  confidence : ℚ
  rationale : String
deriving DecidableEq, Repr

/-- Embeds the `ActionItemCandidate` row in the fields this flow uses. -/
structure Candidate where
  id : Nat
  title : String
  due : Option Int
  effortMinutes : Int
  confidence : ℚ
  status : String
  linkedTaskId : Option Nat
deriving DecidableEq, Repr

/-- Constant `CONFIDENCE_THRESHOLD = 0.75` (meetings.py line 30, assistant.py). -/
def confidenceThreshold : ℚ := 3 / 4

/-- Constant `LARGE_EFFORT_MINUTES = 240` (meetings.py line 31, assistant.py). -/
def largeEffortMinutes : Int := 240

/-- The state the candidate-processing loops mutate: candidates, approval
requests, created tasks (id and title; `approve_candidate` additionally tries
to place a calendar block, which is outside this claim). -/
structure MeetingPipelineState where
  candidates : List Candidate
  approvals : List Approval
  tasks : List (Nat × String)
  nextId : Nat
deriving DecidableEq, Repr

/-- One iteration of the draft loop of `_process_meeting` (meetings.py lines
53-79): persist a `pending` candidate, and queue an `action_item` approval
when `confidence < CONFIDENCE_THRESHOLD or effort_minutes >=
LARGE_EFFORT_MINUTES`.  High-confidence candidates are NOT auto-approved on
this path: no task is created and the candidate stays `pending`. -/
def processMeetingStep (st : MeetingPipelineState) (draft : Draft) : MeetingPipelineState :=
  let cand : Candidate :=
    ⟨st.nextId, draft.title, draft.due, draft.effortMinutes, draft.confidence, "pending", none⟩
  let st1 := { st with candidates := st.candidates ++ [cand], nextId := st.nextId + 1 }
  if draft.confidence < confidenceThreshold ∨ largeEffortMinutes ≤ draft.effortMinutes then
    { st1 with approvals := st1.approvals ++ [⟨"action_item", "pending", some cand.id⟩] }
  else st1

def processMeetingDrafts (st : MeetingPipelineState) (drafts : List Draft) :
    MeetingPipelineState :=
  drafts.foldl processMeetingStep st

/-- One iteration of the draft loop of `_register_meeting_and_apply`
(assistant.py lines 802-853): same `must_approve` test; when it fails the
candidate is approved via `approve_candidate` (actions.py lines 12-55) which
creates a task, marks the candidate `approved` and links it.  Otherwise an
`action_item` approval is queued and the candidate stays `pending`. -/
def registerMeetingStep (st : MeetingPipelineState) (draft : Draft) : MeetingPipelineState :=
  let cand : Candidate :=
    ⟨st.nextId, draft.title, draft.due, draft.effortMinutes, draft.confidence, "pending", none⟩
  let st1 := { st with candidates := st.candidates ++ [cand], nextId := st.nextId + 1 }
  if draft.confidence < confidenceThreshold ∨ largeEffortMinutes ≤ draft.effortMinutes then
    { st1 with approvals := st1.approvals ++ [⟨"action_item", "pending", some cand.id⟩] }
  else
    let taskId := st1.nextId
    { st1 with
      tasks := st1.tasks ++ [(taskId, draft.title)]
      candidates := st1.candidates.map (fun c =>
        if c.id == cand.id then { c with status := "approved", linkedTaskId := some taskId } else c)
      nextId := st1.nextId + 1 }

def registerMeetingDrafts (st : MeetingPipelineState) (drafts : List Draft) :
    MeetingPipelineState :=
  drafts.foldl registerMeetingStep st

/-- Counterexample to C8 as stated.  A candidate with confidence 0.9 and
effort 60 minutes meets the auto-approval threshold, yet the background
meeting-ingest pipeline (`_process_meeting`) does not approve it into a task:
it stays `pending`, no task is created — and no approval request is queued
either. -/
theorem high_confidence_not_approved_on_ingest_path :
    (3 / 4 : ℚ) ≤ 9 / 10 ∧ (60 : Int) < 240 ∧
      (processMeetingDrafts ⟨[], [], [], 0⟩
          [⟨"draft report", none, none, 60, 9 / 10, "hint"⟩]).tasks = [] ∧
      (processMeetingDrafts ⟨[], [], [], 0⟩
          [⟨"draft report", none, none, 60, 9 / 10, "hint"⟩]).approvals = [] ∧
      (processMeetingDrafts ⟨[], [], [], 0⟩
          [⟨"draft report", none, none, 60, 9 / 10, "hint"⟩]).candidates =
        [⟨0, "draft report", none, 60, 9 / 10, "pending", none⟩] := by
  refine ⟨by norm_num, by norm_num, ?_, ?_, ?_⟩ <;>
    simp [processMeetingDrafts, processMeetingStep, confidenceThreshold, largeEffortMinutes] <;>
    norm_num

/-- C8 (amended).  The auto-approval threshold `confidence ≥ 0.75 AND
effort_minutes < 240` governs both paths, but only the chat-assistant
registration path (`_register_meeting_and_apply`) approves such a candidate
into a task without confirmation; the background ingest pipeline
(`_process_meeting`) leaves it `pending` with no approval request (awaiting
the explicit approve endpoint).  Below the threshold, both paths queue a
pending `action_item` ApprovalRequest referencing the candidate and create no
task. -/
theorem action_item_threshold_behavior (st : MeetingPipelineState) (draft : Draft) :
    (confidenceThreshold ≤ draft.confidence → draft.effortMinutes < largeEffortMinutes →
      ((registerMeetingStep st draft).approvals = st.approvals ∧
        (registerMeetingStep st draft).tasks = st.tasks ++ [(st.nextId + 1, draft.title)] ∧
        (registerMeetingStep st draft).candidates =
          (st.candidates ++
            [(⟨st.nextId, draft.title, draft.due, draft.effortMinutes, draft.confidence,
              "pending", none⟩ : Candidate)]).map (fun c =>
                if c.id == st.nextId then
                  { c with status := "approved", linkedTaskId := some (st.nextId + 1) }
                else c) ∧
        (processMeetingStep st draft).approvals = st.approvals ∧
        (processMeetingStep st draft).tasks = st.tasks ∧
        (processMeetingStep st draft).candidates =
          st.candidates ++
            [⟨st.nextId, draft.title, draft.due, draft.effortMinutes, draft.confidence,
              "pending", none⟩])) ∧
    (draft.confidence < confidenceThreshold ∨ largeEffortMinutes ≤ draft.effortMinutes →
      ((registerMeetingStep st draft).approvals =
          st.approvals ++ [⟨"action_item", "pending", some st.nextId⟩] ∧
        (registerMeetingStep st draft).tasks = st.tasks ∧
        (processMeetingStep st draft).approvals =
          st.approvals ++ [⟨"action_item", "pending", some st.nextId⟩] ∧
        (processMeetingStep st draft).tasks = st.tasks)) := by
  constructor
  · intro hconf heff
    have hcond : ¬ (draft.confidence < confidenceThreshold ∨
        largeEffortMinutes ≤ draft.effortMinutes) := by
      push_neg
      exact ⟨hconf, heff⟩
    unfold registerMeetingStep processMeetingStep
    rw [if_neg hcond, if_neg hcond]
    exact ⟨rfl, rfl, rfl, rfl, rfl, rfl⟩
  · intro hcond
    unfold registerMeetingStep processMeetingStep
    rw [if_pos hcond, if_pos hcond]
    exact ⟨rfl, rfl, rfl, rfl⟩

/-- Witness for `action_item_threshold_behavior`: confidence 0.9, effort 60 on
the chat path creates the task and queues no approval. -/
theorem action_item_threshold_behavior_witness :
    (registerMeetingStep ⟨[], [], [], 0⟩ ⟨"draft report", none, none, 60, 9 / 10, "hint"⟩).tasks =
      [(1, "draft report")] ∧
    (registerMeetingStep ⟨[], [], [], 0⟩
        ⟨"draft report", none, none, 60, 9 / 10, "hint"⟩).approvals = [] :=
  have h := (action_item_threshold_behavior ⟨[], [], [], 0⟩
      ⟨"draft report", none, none, 60, 9 / 10, "hint"⟩).1
    (by unfold confidenceThreshold; norm_num) (by unfold largeEffortMinutes; norm_num)
  ⟨by simpa using h.2.1, h.1⟩

/-! ### Preservation of the calendar invariant (C1) -/

theorem overlapsAny_false_iff (blocks : List Block) (x y : Int) :
    overlapsAny blocks x y = false ↔
      ∀ b ∈ blocks, ¬ (b.start < y ∧ b.stop > x) := by
  unfold overlapsAny
  rw [Bool.eq_false_iff, ne_eq, List.any_eq_true]
  simp only [Bool.and_eq_true, decide_eq_true_eq]
  constructor
  · intro h b hb hc
    exact h ⟨b, hb, hc⟩
  · rintro h ⟨b, hb, hp⟩
    exact h b hb hp

theorem overlapsAnyExcept_false_iff (blocks : List Block) (eid : Nat) (x y : Int) :
    overlapsAnyExcept blocks eid x y = false ↔
      ∀ b ∈ blocks, b.id ≠ eid → ¬ (b.start < y ∧ b.stop > x) := by
  unfold overlapsAnyExcept
  rw [Bool.eq_false_iff, ne_eq, List.any_eq_true]
  simp only [Bool.and_eq_true, bne_iff_ne, ne_eq, decide_eq_true_eq]
  constructor
  · intro h b hb hne hc
    exact h ⟨b, hb, by tauto⟩
  · rintro h ⟨b, hb, hp⟩
    have hne : b.id ≠ eid := by tauto
    have h1 : b.start < y := by tauto
    have h2 : b.stop > x := by tauto
    exact h b hb hne ⟨h1, h2⟩

theorem mem_unique_by_id (l : List Block)
    (hu : List.Pairwise (fun a b => a.id ≠ b.id) l) :
    ∀ a ∈ l, ∀ b ∈ l, a.id = b.id → a = b := by
  induction l with
  | nil => simp
  | cons x xs ih =>
      intro a ha b hb hid
      rcases List.mem_cons.mp ha with rfl | ha' <;> rcases List.mem_cons.mp hb with rfl | hb'
      · rfl
      · exact absurd hid (List.rel_of_pairwise_cons hu hb')
      · exact absurd hid.symm (List.rel_of_pairwise_cons hu ha')
      · exact ih hu.of_cons a ha' b hb' hid

theorem pairwise_append_singleton {α : Type} (R : α → α → Prop) (l : List α) (x : α) :
    List.Pairwise R (l ++ [x]) ↔ List.Pairwise R l ∧ ∀ a ∈ l, R a x := by
  rw [List.pairwise_append]
  simp

theorem pairwise_of_forall_id (blocks : List Block) (S : Block → Block → Prop)
    (hu : List.Pairwise (fun a b => a.id ≠ b.id) blocks)
    (h : ∀ a ∈ blocks, ∀ b ∈ blocks, a.id ≠ b.id → S a b) :
    List.Pairwise S blocks := by
  induction blocks with
  | nil => simp
  | cons x xs ih =>
      refine List.pairwise_cons.mpr ⟨?_, ?_⟩
      · intro b hb
        exact h x (by simp) b (by simp [hb]) (List.rel_of_pairwise_cons hu hb)
      · exact ih hu.of_cons (fun a ha b hb => h a (by simp [ha]) b (by simp [hb]))

theorem aawoDisj_forall (blocks : List Block) (h : AawoDisj blocks) :
    ∀ a ∈ blocks, ∀ b ∈ blocks, a ≠ b →
      a.source = "aawo" → b.source = "aawo" →
      IvlDisj ⟨a.start, a.stop⟩ ⟨b.start, b.stop⟩ := by
  intro a ha b hb hne
  have hsymm : Symmetric (fun a b : Block => a.source = "aawo" → b.source = "aawo" →
      IvlDisj ⟨a.start, a.stop⟩ ⟨b.start, b.stop⟩) := by
    intro c d hcd hds hcs
    exact (hcd hcs hds).symm
  exact List.Pairwise.forall hsymm h ha hb hne

/-- Inserting a freshly numbered block that overlaps nothing preserves the
invariant (shared by the create endpoint and the create_event handler). -/
theorem insert_fresh_block_inv (s : AppState) (nb : Block) (h : StateInv s)
    (hproper : nb.start < nb.stop) (hid : nb.id = s.nextId)
    (hnoov : overlapsAny s.blocks nb.start nb.stop = false) :
    StateInv { s with blocks := s.blocks ++ [nb], nextId := s.nextId + 1 } := by
  obtain ⟨hb, hids, haawo, hprops⟩ := h
  have hdisj := (overlapsAny_false_iff s.blocks nb.start nb.stop).mp hnoov
  refine ⟨?_, ?_, ?_, ?_⟩
  · intro b hbmem
    dsimp only at hbmem ⊢
    rcases List.mem_append.mp hbmem with hb' | hb'
    · obtain ⟨h1, h2⟩ := hb b hb'
      exact ⟨h1, by omega⟩
    · obtain rfl := List.mem_singleton.mp hb'
      exact ⟨hproper, by omega⟩
  · rw [pairwise_append_singleton]
    refine ⟨hids, ?_⟩
    intro a ha
    have := (hb a ha).2
    omega
  · unfold AawoDisj
    rw [pairwise_append_singleton]
    refine ⟨haawo, ?_⟩
    intro a ha _ _
    have := hdisj a ha
    unfold IvlDisj
    dsimp only
    omega
  · exact hprops

/-- Updating the (unique) block with id `tid` preserves the invariant as long
as the update keeps id and source, keeps the interval well-formed, and the
new interval respects the aawo-disjointness against every other block. -/
theorem update_block_inv (s : AppState) (tid : Nat) (f : Block → Block) (h : StateInv s)
    (hidf : ∀ b, (f b).id = b.id)
    (hsrc : ∀ b, (f b).source = b.source)
    (hproper : ∀ b ∈ s.blocks, b.id = tid → (f b).start < (f b).stop)
    (hdisj : ∀ b ∈ s.blocks, b.id = tid → ∀ b' ∈ s.blocks, b'.id ≠ tid →
      (f b).source = "aawo" → b'.source = "aawo" →
      IvlDisj ⟨(f b).start, (f b).stop⟩ ⟨b'.start, b'.stop⟩) :
    StateInv { s with
      blocks := s.blocks.map (fun b => if b.id == tid then f b else b) } := by
  obtain ⟨hb, hids, haawo, hprops⟩ := h
  have hgid : ∀ b, ((if b.id == tid then f b else b)).id = b.id := by
    intro b
    by_cases hc : b.id == tid
    · rw [if_pos hc]; exact hidf b
    · rw [if_neg hc]
  have hgsrc : ∀ b, ((if b.id == tid then f b else b)).source = b.source := by
    intro b
    by_cases hc : b.id == tid
    · rw [if_pos hc]; exact hsrc b
    · rw [if_neg hc]
  have hidsmap : List.Pairwise (fun a b => a.id ≠ b.id)
      (s.blocks.map (fun b => if b.id == tid then f b else b)) := by
    rw [List.pairwise_map]
    refine hids.imp ?_
    intro a b hab
    rw [hgid a, hgid b]
    exact hab
  refine ⟨?_, hidsmap, ?_, ?_⟩
  · intro b hbmem
    obtain ⟨a, ha, rfl⟩ := List.mem_map.mp hbmem
    refine ⟨?_, ?_⟩
    · by_cases hc : a.id == tid
      · rw [if_pos hc]
        exact hproper a ha (by simpa using hc)
      · rw [if_neg hc]
        exact (hb a ha).1
    · rw [hgid a]
      exact (hb a ha).2
  · unfold AawoDisj
    refine pairwise_of_forall_id _ _ hidsmap ?_
    intro x hx y hy hxy
    obtain ⟨a, ha, rfl⟩ := List.mem_map.mp hx
    obtain ⟨b, hbm, rfl⟩ := List.mem_map.mp hy
    rw [hgsrc a, hgsrc b]
    rw [hgid a, hgid b] at hxy
    by_cases hca : a.id == tid
    · have hb_ne : b.id ≠ tid := by
        have : a.id = tid := by simpa using hca
        omega
      rw [if_pos hca, if_neg (by simpa using hb_ne)]
      intro hsa hsb
      exact hdisj a ha (by simpa using hca) b hbm hb_ne (by rwa [hsrc a]) hsb
    · by_cases hcb : b.id == tid
      · rw [if_neg hca, if_pos hcb]
        intro hsa hsb
        exact (hdisj b hbm (by simpa using hcb) a ha (by simpa using hca)
          (by rwa [hsrc b]) hsa).symm
      · rw [if_neg hca, if_neg hcb]
        have hne : a ≠ b := fun he => hxy (congrArg Block.id he)
        exact aawoDisj_forall s.blocks haawo a ha b hbm hne
  · exact hprops

theorem createBlock_preserves (s : AppState) (p : BlockCreate) (h : StateInv s) :
    StateInv (createBlockEndpoint s p) := by
  unfold createBlockEndpoint
  by_cases h1 : p.stop ≤ p.start
  · rwa [if_pos h1]
  · rw [if_neg h1]
    by_cases h2 : overlapsAny s.blocks p.start p.stop = true
    · rwa [if_pos h2]
    · rw [if_neg h2]
      exact insert_fresh_block_inv s _ h (show p.start < p.stop by omega) rfl
        (by simpa using h2)

theorem createEvent_preserves (s : AppState) (title : String) (startOpt : Option Int)
    (durationMinutes : Int) (h : StateInv s) :
    StateInv (createEventHandler s title startOpt durationMinutes) := by
  unfold createEventHandler
  cases startOpt with
  | none => exact h
  | some bstart =>
      dsimp only
      by_cases h2 : overlapsAny s.blocks bstart
          (bstart + 60 * max 15 (min (8 * 60) (if durationMinutes = 0 then 60 else durationMinutes))) = true
      · rwa [if_pos h2]
      · rw [if_neg h2]
        refine insert_fresh_block_inv s _ h ?_ rfl (by simpa using h2)
        show bstart < bstart + 60 * max 15 (min (8 * 60) (if durationMinutes = 0 then 60 else durationMinutes))
        omega

theorem patchBlock_preserves (s : AppState) (bid : Nat) (p : BlockPatch) (h : StateInv s) :
    StateInv (patchBlockEndpoint s bid p) := by
  unfold patchBlockEndpoint
  cases hfind : s.blocks.find? (fun b => b.id == bid) with
  | none => exact h
  | some row =>
      dsimp only
      by_cases h1 : p.stop.getD row.stop ≤ p.start.getD row.start
      · rwa [if_pos h1]
      · rw [if_neg h1]
        by_cases h2 : ((p.start.getD row.start != row.start || p.stop.getD row.stop != row.stop) &&
            overlapsAnyExcept s.blocks row.id (p.start.getD row.start) (p.stop.getD row.stop)) = true
        · rwa [if_pos h2]
        · rw [if_neg h2]
          have hrowmem : row ∈ s.blocks := List.mem_of_find?_eq_some hfind
          refine update_block_inv s row.id _ h (fun b => rfl) (fun b => rfl) ?_ ?_
          · intro b _ _
            show p.start.getD row.start < p.stop.getD row.stop
            omega
          · intro b hbmem hbid b' hb' hbne' hsa hsb
            by_cases htc : (p.start.getD row.start != row.start ||
                p.stop.getD row.stop != row.stop) = true
            · have hov : overlapsAnyExcept s.blocks row.id (p.start.getD row.start)
                  (p.stop.getD row.stop) = false := by
                cases hcase : overlapsAnyExcept s.blocks row.id (p.start.getD row.start)
                    (p.stop.getD row.stop) with
                | false => rfl
                | true => exact absurd (by rw [htc, hcase]; rfl) h2
              have hnd := (overlapsAnyExcept_false_iff _ _ _ _).mp hov b' hb' hbne'
              show ¬ _
              dsimp only
              omega
            · have heq : p.start.getD row.start = row.start ∧
                  p.stop.getD row.stop = row.stop := by
                constructor <;> by_contra hne <;>
                  exact htc (by simp [hne])
              have hbrow : b = row :=
                mem_unique_by_id s.blocks h.2.1 b hbmem row hrowmem hbid
              subst hbrow
              have hsrc' : b.source = "aawo" := hsa
              have hne : b ≠ b' := by
                intro he
                exact hbne' (by rw [← he])
              have := aawoDisj_forall s.blocks h.2.2.1 b hbmem b' hb' hne hsrc' hsb
              unfold IvlDisj at this ⊢
              dsimp only at this ⊢
              omega

theorem mem_insertBlockByStart {x y : Block} {l : List Block} :
    y ∈ insertBlockByStart x l ↔ y = x ∨ y ∈ l := by
  induction l with
  | nil => simp [insertBlockByStart]
  | cons z zs ih =>
      by_cases h : x.start ≤ z.start
      · simp [insertBlockByStart, h]
      · simp [insertBlockByStart, h, ih]
        tauto

theorem mem_sortBlocksByStart {x : Block} {l : List Block} :
    x ∈ sortBlocksByStart l ↔ x ∈ l := by
  induction l with
  | nil => simp [sortBlocksByStart]
  | cons y ys ih =>
      show x ∈ insertBlockByStart y (sortBlocksByStart ys) ↔ _
      rw [mem_insertBlockByStart]
      simp [ih]

theorem findEventByKeyword_mem (blocks : List Block) (keyword : Option String) (t : Block)
    (h : findEventByKeyword blocks keyword = some t) : t ∈ blocks := by
  unfold findEventByKeyword at h
  cases keyword with
  | none => exact absurd h (by simp)
  | some kw0 =>
      dsimp only at h
      by_cases hk : kw0 = ""
      · rw [if_pos hk] at h
        exact absurd h (by simp)
      · rw [if_neg hk] at h
        cases hex : (sortBlocksByStart blocks).find?
            (fun b => b.title != "" && pyLower (pyStrip kw0) == pyLower b.title) with
        | some b =>
            rw [hex] at h
            injection h with h'
            subst h'
            exact mem_sortBlocksByStart.mp (List.mem_of_find?_eq_some hex)
        | none =>
            rw [hex] at h
            exact mem_sortBlocksByStart.mp (List.mem_of_find?_eq_some h)

theorem moveEvent_preserves (s : AppState) (keyword : Option String)
    (newStart newEnd : Option Int) (durationMinutes : Option Int) (h : StateInv s) :
    StateInv (moveEventHandler s keyword newStart newEnd durationMinutes) := by
  unfold moveEventHandler
  cases newStart with
  | none => exact h
  | some ns =>
      dsimp only
      cases hfind : findEventByKeyword s.blocks keyword with
      | none => exact h
      | some target =>
          dsimp only
          by_cases hext : target.source = "external"
          · rwa [if_pos hext]
          · rw [if_neg hext]
            set blockLen := if (target.stop - target.start).fdiv 60 = 0 then 60
                            else (target.stop - target.start).fdiv 60 with hbl
            set dm := match durationMinutes with
                      | some d => if d = 0 then blockLen else d
                      | none => blockLen with hdm
            set durationSecs := match newEnd with
                                | some ne => if ns < ne then ne - ns
                                             else 60 * max 15 (min (8 * 60) dm)
                                | none => 60 * max 15 (min (8 * 60) dm) with hds
            have hpos : 0 < durationSecs := by
              rw [hds]
              cases newEnd with
              | none => simp only; omega
              | some ne =>
                  simp only
                  by_cases hlt : ns < ne
                  · rw [if_pos hlt]; omega
                  · rw [if_neg hlt]; omega
            by_cases hov : overlapsAnyExcept s.blocks target.id ns (ns + durationSecs) = true
            · rwa [if_pos hov]
            · rw [if_neg hov]
              have hovf : overlapsAnyExcept s.blocks target.id ns (ns + durationSecs) = false := by
                simpa using hov
              refine update_block_inv s target.id _ h (fun b => rfl) (fun b => rfl) ?_ ?_
              · intro b _ _
                show ns < ns + durationSecs
                omega
              · intro b hbmem hbid b' hb' hbne' _ _
                have hnd := (overlapsAnyExcept_false_iff _ _ _ _).mp hovf b' hb' hbne'
                show ¬ _
                dsimp only
                omega

theorem allocate_changes_ok (tasks : List SchedTask) (intervals : List Ivl) (slot : Int)
    (order : List SchedTask → List SchedTask) (score : Option Int → Ivl → ℚ)
    (hslot : 1 ≤ slot) (hpair : List.Pairwise IvlDisj intervals) :
    (∀ c ∈ allocateChanges tasks intervals slot order score,
        c.kind = "create_block" → c.start < c.stop) ∧
      List.Pairwise (fun c1 c2 => c1.kind = "create_block" → c2.kind = "create_block" →
        IvlDisj ⟨c1.start, c1.stop⟩ ⟨c2.start, c2.stop⟩)
        (allocateChanges tasks intervals slot order score) := by
  constructor
  · intro c hc _
    obtain ⟨t, _, _, _, _, _, hstop, _⟩ :=
      allocGo_shape slot score (order tasks) intervals c
        (allocateChanges_mem_allocGo tasks intervals slot order score c hc)
    have := requiredMinutes_pos t.effortMinutes slot hslot
    omega
  · unfold allocateChanges
    by_cases h : tasks.isEmpty
    · rw [if_pos h]; simp
    · rw [if_neg h, map_mk_eta]
      exact (allocGo_pairwise slot score hslot (order tasks) intervals hpair).imp
        (fun hd _ _ => hd)

theorem genFold_facts (tasks : List SchedTask) (intervals : List Ivl) (slot : Int)
    (hok : ∀ (o : List SchedTask → List SchedTask) (sc : Option Int → Ivl → ℚ),
      ChgOK ⟨0, "draft", allocateChanges tasks intervals slot o sc⟩) :
    ∀ (strats : List ((List SchedTask → List SchedTask) × (Option Int → Ivl → ℚ)))
      (st : AppState),
      (strats.foldl
          (fun st strat =>
            { st with
              proposals := st.proposals ++
                [⟨st.nextId, "draft", allocateChanges tasks intervals slot strat.1 strat.2⟩]
              nextId := st.nextId + 1 })
          st).blocks = st.blocks ∧
        st.nextId ≤
          (strats.foldl
              (fun st strat =>
                { st with
                  proposals := st.proposals ++
                    [⟨st.nextId, "draft",
                      allocateChanges tasks intervals slot strat.1 strat.2⟩]
                  nextId := st.nextId + 1 })
              st).nextId ∧
        ∀ p ∈ (strats.foldl
            (fun st strat =>
              { st with
                proposals := st.proposals ++
                  [⟨st.nextId, "draft", allocateChanges tasks intervals slot strat.1 strat.2⟩]
                nextId := st.nextId + 1 })
            st).proposals, p ∈ st.proposals ∨ ChgOK p := by
  intro strats
  induction strats with
  | nil => intro st; exact ⟨rfl, le_refl _, fun p hp => Or.inl hp⟩
  | cons strat rest ih =>
      intro st
      rw [List.foldl_cons]
      obtain ⟨hbl, hnext, hprops⟩ := ih
        { st with
          proposals := st.proposals ++
            [⟨st.nextId, "draft", allocateChanges tasks intervals slot strat.1 strat.2⟩]
          nextId := st.nextId + 1 }
      refine ⟨hbl, by dsimp only at hnext ⊢; omega, ?_⟩
      intro p hp
      rcases hprops p hp with hmem | hok'
      · dsimp only at hmem
        rcases List.mem_append.mp hmem with hmem' | hmem'
        · exact Or.inl hmem'
        · obtain rfl := List.mem_singleton.mp hmem'
          exact Or.inr (hok strat.1 strat.2)
      · exact Or.inr hok'

theorem genProposals_preserves (s : AppState) (days : List DaySpec) (hs he : Int)
    (tasks : List SchedTask) (slot : Int)
    (strats : List ((List SchedTask → List SchedTask) × (Option Int → Ivl → ℚ)))
    (h : StateInv s) (hslot : 1 ≤ slot) (hdwf : ∀ d ∈ days, DayWF d)
    (hdays : List.Pairwise (fun d e => IvlDisj ⟨d.wstart, d.wstop⟩ ⟨e.wstart, e.wstop⟩) days) :
    StateInv (generateProposalsOp s days hs he tasks slot strats) := by
  unfold generateProposalsOp
  by_cases h1 : tasks.isEmpty
  · rwa [if_pos h1]
  · rw [if_neg h1]
    dsimp only
    by_cases h2 : (freeIntervals days (fetchBusyIntervals s.blocks hs he) hs he).isEmpty
    · rwa [if_pos h2]
    · rw [if_neg h2]
      have hbusy : ∀ b ∈ fetchBusyIntervals s.blocks hs he, b.start < b.stop := by
        intro b hb
        unfold fetchBusyIntervals at hb
        obtain ⟨blk, hblk, rfl⟩ := List.mem_map.mp hb
        exact (h.1 blk (List.mem_of_mem_filter hblk)).1
      have hpair := freeIntervals_pairwise days (fetchBusyIntervals s.blocks hs he) hs he
        hdays hdwf hbusy
      have hok : ∀ (o : List SchedTask → List SchedTask) (sc : Option Int → Ivl → ℚ),
          ChgOK ⟨0, "draft",
            allocateChanges tasks (freeIntervals days (fetchBusyIntervals s.blocks hs he) hs he)
              slot o sc⟩ := by
        intro o sc
        obtain ⟨hp1, hp2⟩ := allocate_changes_ok tasks
          (freeIntervals days (fetchBusyIntervals s.blocks hs he) hs he) slot o sc hslot hpair
        exact ⟨hp1, hp2⟩
      obtain ⟨hbl, hnext, hprops⟩ := genFold_facts tasks
        (freeIntervals days (fetchBusyIntervals s.blocks hs he) hs he) slot hok strats s
      refine ⟨?_, ?_, ?_, ?_⟩
      · rw [hbl]
        intro b hb
        obtain ⟨hp, hid⟩ := h.1 b hb
        exact ⟨hp, by omega⟩
      · rw [hbl]; exact h.2.1
      · rw [hbl]; exact h.2.2.1
      · intro p hp
        rcases hprops p hp with hmem | hok'
        · exact h.2.2.2 p hmem
        · exact hok'

theorem applyCore_facts (blocks : List Block) :
    ∀ (changes : List Chg) (nextId : Nat),
      (∀ c ∈ changes, c.kind = "create_block" → c.start < c.stop) →
      List.Pairwise (fun c1 c2 => c1.kind = "create_block" → c2.kind = "create_block" →
        IvlDisj ⟨c1.start, c1.stop⟩ ⟨c2.start, c2.stop⟩) changes →
      (∀ nb ∈ applyProposalCore blocks changes nextId,
          nb.source = "aawo" ∧ nb.start < nb.stop ∧ nextId ≤ nb.id ∧
          nb.id < nextId + (applyProposalCore blocks changes nextId).length ∧
          (∀ b ∈ blocks, ¬ (b.start < nb.stop ∧ b.stop > nb.start)) ∧
          (∃ c ∈ changes, c.kind = "create_block" ∧ nb.start = c.start ∧ nb.stop = c.stop)) ∧
        List.Pairwise (fun x y => x.id < y.id) (applyProposalCore blocks changes nextId) ∧
        List.Pairwise (fun x y => IvlDisj ⟨x.start, x.stop⟩ ⟨y.start, y.stop⟩)
          (applyProposalCore blocks changes nextId) := by
  intro changes
  induction changes with
  | nil => intro nextId _ _; exact ⟨by simp [applyProposalCore], by simp [applyProposalCore],
      by simp [applyProposalCore]⟩
  | cons c rest ih =>
      intro nextId hproper hpw
      have hproperr : ∀ d ∈ rest, d.kind = "create_block" → d.start < d.stop :=
        fun d hd => hproper d (by simp [hd])
      by_cases hkind : c.kind ≠ "create_block"
      · rw [show applyProposalCore blocks (c :: rest) nextId =
            applyProposalCore blocks rest nextId by rw [applyProposalCore, if_pos hkind]]
        obtain ⟨hfacts, hids, hdisj⟩ := ih nextId hproperr hpw.of_cons
        refine ⟨?_, hids, hdisj⟩
        intro nb hnb
        obtain ⟨f1, f2, f3, f4, f5, d, hd, hdz⟩ := hfacts nb hnb
        exact ⟨f1, f2, f3, f4, f5, d, by simp [hd], hdz⟩
      · rw [not_not] at hkind
        by_cases hov : overlapsAny blocks c.start c.stop = true
        · rw [show applyProposalCore blocks (c :: rest) nextId =
              applyProposalCore blocks rest nextId by
            rw [applyProposalCore, if_neg (by simp [hkind]), hov, if_pos rfl]]
          obtain ⟨hfacts, hids, hdisj⟩ := ih nextId hproperr hpw.of_cons
          refine ⟨?_, hids, hdisj⟩
          intro nb hnb
          obtain ⟨f1, f2, f3, f4, f5, d, hd, hdz⟩ := hfacts nb hnb
          exact ⟨f1, f2, f3, f4, f5, d, by simp [hd], hdz⟩
        · have hovf : overlapsAny blocks c.start c.stop = false := by simpa using hov
          rw [show applyProposalCore blocks (c :: rest) nextId =
              ⟨nextId, c.btype, c.title, c.start, c.stop, c.taskId, c.locked, "aawo", none, 1⟩ ::
                applyProposalCore blocks rest (nextId + 1) by
            rw [applyProposalCore, if_neg (by simp [hkind]), hovf]
            rfl]
          obtain ⟨hfacts, hids, hdisj⟩ := ih (nextId + 1) hproperr hpw.of_cons
          have hblocksdisj := (overlapsAny_false_iff blocks c.start c.stop).mp hovf
          refine ⟨?_, ?_, ?_⟩
          · intro nb hnb
            rcases List.mem_cons.mp hnb with rfl | hnb'
            · refine ⟨rfl, hproper c (by simp) hkind, le_refl _, ?_, ?_, c, by simp, hkind, rfl, rfl⟩
              · dsimp only [List.length_cons]
                omega
              · intro b hb
                exact hblocksdisj b hb
            · obtain ⟨f1, f2, f3, f4, f5, d, hd, hdz⟩ := hfacts nb hnb'
              refine ⟨f1, f2, by omega, ?_, f5, d, by simp [hd], hdz⟩
              dsimp only [List.length_cons]
              omega
          · refine List.pairwise_cons.mpr ⟨?_, hids⟩
            intro nb hnb
            obtain ⟨_, _, f3, _, _, _⟩ := hfacts nb hnb
            dsimp only
            omega
          · refine List.pairwise_cons.mpr ⟨?_, hdisj⟩
            intro nb hnb
            obtain ⟨_, _, _, _, _, d, hd, hdk, hds, hdz⟩ := hfacts nb hnb
            have hrel := List.rel_of_pairwise_cons hpw hd hkind hdk
            unfold IvlDisj at hrel ⊢
            dsimp only at hrel ⊢
            omega

theorem applyProposal_preserves (s : AppState) (pid : Nat) (approved : Bool)
    (autonomy : String) (h : StateInv s) :
    StateInv (step s (Op.applyProposal pid approved autonomy)) := by
  show StateInv (match applyScheduleProposal s pid approved autonomy with
    | Except.error _ => s
    | Except.ok (s', _, _) => s')
  unfold applyScheduleProposal
  cases hfind : s.proposals.find? (fun p => p.id == pid) with
  | none => exact h
  | some proposal =>
      dsimp only
      by_cases hst : proposal.status ≠ "draft"
      · rw [if_pos hst]; exact h
      · rw [if_neg hst]
        by_cases happ : (autonomy = "L0" ∨ autonomy = "L1" ∨ autonomy = "L2") ∧ ¬ approved
        · rw [if_pos happ]
          exact ⟨h.1, h.2.1, h.2.2.1, h.2.2.2⟩
        · rw [if_neg happ]
          dsimp only
          have hchg : ChgOK proposal := h.2.2.2 proposal (List.mem_of_find?_eq_some hfind)
          obtain ⟨hfacts, hids, hdisj⟩ :=
            applyCore_facts s.blocks proposal.changes s.nextId hchg.1 hchg.2
          refine ⟨?_, ?_, ?_, ?_⟩
          · intro b hb
            dsimp only at hb ⊢
            rcases List.mem_append.mp hb with hb' | hb'
            · obtain ⟨h1, h2⟩ := h.1 b hb'
              exact ⟨h1, by omega⟩
            · obtain ⟨_, f2, _, f4, _, _⟩ := hfacts b hb'
              exact ⟨f2, by omega⟩
          · dsimp only
            rw [List.pairwise_append]
            refine ⟨h.2.1, hids.imp (fun hlt => by omega), ?_⟩
            intro a ha nb hnb
            obtain ⟨_, _, f3, _, _, _⟩ := hfacts nb hnb
            have := (h.1 a ha).2
            omega
          · unfold AawoDisj
            dsimp only
            rw [List.pairwise_append]
            refine ⟨h.2.2.1, hdisj.imp (fun hd _ _ => hd), ?_⟩
            intro a ha nb hnb _ _
            obtain ⟨_, _, _, _, f5, _⟩ := hfacts nb hnb
            have := f5 a ha
            unfold IvlDisj
            dsimp only
            omega
          · intro p hp
            dsimp only at hp
            obtain ⟨q, hq, rfl⟩ := List.mem_map.mp hp
            have hqok := h.2.2.2 q hq
            by_cases hc : q.id == pid
            · rw [if_pos hc]
              exact ⟨hqok.1, hqok.2⟩
            · rw [if_neg hc]
              exact hqok

theorem step_preserves (s : AppState) (op : Op) (h : StateInv s) (hwf : OpWF op) :
    StateInv (step s op) := by
  cases op with
  | createBlock p => exact createBlock_preserves s p h
  | patchBlock bid p => exact patchBlock_preserves s bid p h
  | createEvent t st d => exact createEvent_preserves s t st d h
  | moveEvent k ns ne dm => exact moveEvent_preserves s k ns ne dm h
  | genProposals days hs he tasks slot strats =>
      obtain ⟨hslot, hdwf, hdays⟩ := hwf
      exact genProposals_preserves s days hs he tasks slot strats h hslot hdwf hdays
  | applyProposal pid approved autonomy => exact applyProposal_preserves s pid approved autonomy h

/-- C1.  In every state reachable through the program's calendar operations
(the block create/patch endpoints, the assistant's create_event and
move_event handlers, proposal generation, and the ProposalApplier) from a
state satisfying the calendar invariant, no two committed `aawo`-sourced
blocks overlap: every insert or move re-checks overlap against the calendar
before committing, and the ProposalApplier silently skips conflicting
`create_block` changes.  Well-formedness (`OpWF`) only constrains proposal
generation: a valid slot size and a sane working-hours profile. -/
theorem aawo_blocks_never_overlap (ops : List Op) (s : AppState)
    (hinv : StateInv s) (hwf : ∀ op ∈ ops, OpWF op) :
    AawoDisj (ops.foldl step s).blocks := by
  suffices h : StateInv (ops.foldl step s) from h.2.2.1
  induction ops generalizing s with
  | nil => exact hinv
  | cons op rest ih =>
      rw [List.foldl_cons]
      exact ih (step s op) (step_preserves s op hinv (hwf op (by simp)))
        (fun o ho => hwf o (by simp [ho]))

/-- Witness for `aawo_blocks_never_overlap`: from the empty calendar, create a
block, generate a proposal over a 09:00-18:00 day and apply it, then create
an adjacent event. -/
theorem aawo_blocks_never_overlap_witness :
    AawoDisj
      (([Op.createBlock ⟨"task_block", "T", 0, 3600, none, false⟩,
          Op.genProposals [⟨32400, 64800, some (43200, 46800)⟩] 0 86400
            [⟨"t1", "T", "todo", none, 60, "medium"⟩] 30 [(id, fun _ _ => (0 : ℚ))],
          Op.applyProposal 1 true "L4",
          Op.createEvent "E" (some 3600) 60].foldl step ⟨[], [], [], 0⟩).blocks) := by
  apply aawo_blocks_never_overlap
  · exact ⟨by simp, by simp, List.Pairwise.nil, by simp⟩
  · intro op hop
    rcases List.mem_cons.mp hop with rfl | hop
    · trivial
    · rcases List.mem_cons.mp hop with rfl | hop
      · refine ⟨by norm_num, ?_, ?_⟩
        · intro d hd
          obtain rfl := List.mem_singleton.mp hd
          intro ls le2 hl
          simp only [Option.some.injEq, Prod.mk.injEq] at hl
          omega
        · simp
      · rcases List.mem_cons.mp hop with rfl | hop
        · trivial
        · rcases List.mem_cons.mp hop with rfl | hop
          · trivial
          · simp at hop
